import Mathlib

/-!
Shallow embedding of the competition namelist scheduling core
(src/src/services/rundownService.ts): the time helper addMinutes, the
entry-index helper getEntryIndex, the sortable entry code, and the
scheduler scheduleParticipants, together with theorems settling the
frozen claims about them.

Embedding conventions:
- JS strings are Lean Strings; a missing/undefined optional string is the
  empty string, matching the falsiness tests used by the code.
- JS Map/Record keyed by string is an association list (most recent set
  wins) or a lookup function.
- Number parsing models nonnegative decimal literals: a digit string
  parses to its value and everything else (including the empty string)
  yields 0, matching the chain Number(s) || 0 on the inputs in scope.
- The Date-based minute arithmetic is modelled as minutes-since-midnight
  arithmetic with day wraparound (a fixed-offset clock, no DST).
- localeCompare is modelled as code-point string comparison.
- Array.prototype.sort with a consistent comparator is modelled as a
  stable insertion sort.
- The mutable assignment loop is modelled as structural recursion with an
  explicit loop state (Core).
-/

namespace Rundown

/-- One competitor, or one member of a multi-person entry
(src/config/defaults).  The optional groupId field is the empty string
when the participant is ungrouped, matching the falsiness test
used throughout the source. -/
structure Participant where
  id : String
  name : String
  team : String
  division : String
  eventCode : String
  groupId : String
deriving DecidableEq, Repr, Inhabited

/-- One competition event (src/config/defaults); only the code is used by
the scheduling core. -/
structure EventConfig where
  code : String
  displayName : String
deriving DecidableEq, Repr

/-- Per-event scheduling parameters (rundownService.ts lines 4-9).
heatDuration and stationCount are Option because the code defends with
the ?? operator against loosely-typed callers omitting them. -/
structure RundownConfig where
  startTime : String
  heatDuration : Option Int
  stationCount : Option Nat
  rowsPerPage : Nat
deriving Repr

/-- Options of one scheduling invocation (rundownService.ts lines 11-15);
the empty string / zero model an absent optional field, matching the
falsiness tests in the source. -/
structure ScheduleOptions where
  targetEventCode : String := ""
  initialStartTime : String := ""
  startHeatNumber : Nat := 0
deriving Repr

/-- One output row of the scheduler (rundownService.ts lines 17-22). -/
structure ScheduleResult where
  participantId : String
  heat : Nat
  station : Nat
  scheduleTime : String
deriving DecidableEq, Repr

/-- JS s || t on strings: the first operand unless it is falsy (empty). -/
def jsOrStr (a b : String) : String := if a = "" then b else a

/-- Whitespace characters recognized by the trim model. -/
def jsIsWhitespace (c : Char) : Bool :=
  c = ' ' ∨ c = '\t' ∨ c = '\n' ∨ c = '\r'

/-- JS String.prototype.trim, modelled structurally over the character
list (the common whitespace set). -/
def trimString (s : String) : String :=
  String.mk (((s.data.dropWhile jsIsWhitespace).reverse.dropWhile
    jsIsWhitespace).reverse)

/-- Split a character list at every occurrence of the separator. -/
def splitCharList (sep : Char) : List Char → List (List Char)
  | [] => [[]]
  | x :: xs =>
    let r := splitCharList sep xs
    if x = sep then [] :: r
    else
      match r with
      | [] => [[x]]
      | seg :: segs => (x :: seg) :: segs

/-- JS String.prototype.split with a one-character separator, modelled
structurally. -/
def splitOnChar (sep : Char) (s : String) : List String :=
  (splitCharList sep s.data).map String.mk

/-- JS String.prototype.padStart with a single pad character. -/
def jsPadStart (s : String) (n : Nat) (c : Char) : String :=
  if n ≤ s.length then s else String.mk (List.replicate (n - s.length) c) ++ s

/-- Number(part) || 0 for the time-string parts in scope: a digit string
parses to its value, anything else (including the empty string, for which
Number yields 0 already) yields 0. -/
def jsTimePart (s : String) : Nat :=
  if s.data ≠ [] ∧ s.data.all Char.isDigit then
    s.data.foldl (fun acc c => acc * 10 + (c.toNat - 48)) 0
  else 0

/-- JS String.prototype.localeCompare modelled as code-point comparison. -/
def jsCompareStrings (a b : String) : Int :=
  match compare a b with
  | .lt => -1
  | .eq => 0
  | .gt => 1

/-- addMinutes (rundownService.ts lines 28-42): parse HH:MM, add the
offset via Date arithmetic (modelled as minutes-of-day with day
wraparound), and re-extract zero-padded hour and minute. -/
def addMinutes (timeStr : String) (minutes : Int) : String :=
  let parts := splitOnChar ':' timeStr
  let h := jsTimePart (parts.getD 0 "")
  let m := jsTimePart (parts.getD 1 "")
  let total : Int := (h * 60 + m : Nat) + minutes
  let wrapped : Nat := (total.emod 1440).toNat
  jsPadStart (toString (wrapped / 60)) 2 '0' ++ ":" ++
    jsPadStart (toString (wrapped % 60)) 2 '0'

/-- JS Array.prototype.indexOf (strict equality modelled structurally):
index of the first occurrence, -1 when absent. -/
def jsIndexOf : List Participant → Participant → Int
  | [], _ => -1
  | x :: xs, p =>
    if x = p then 0
    else
      let r := jsIndexOf xs p
      if r = -1 then -1 else r + 1

/-- The scan of the grouped branch of getEntryIndex (rundownService.ts
lines 53-75): walk the list keeping the set of already-counted group ids
and the running entry counter; stop at the first item whose id matches. -/
def entryScan (pid : String) : List Participant → List String → Nat → Int
  | [], _, _ => -1
  | item :: rest, processed, counter =>
    if item.groupId ≠ "" then
      let processed2 :=
        if item.groupId ∈ processed then processed else item.groupId :: processed
      let counter2 :=
        if item.groupId ∈ processed then counter else counter + 1
      if item.id = pid then (counter2 : Int)
      else entryScan pid rest processed2 counter2
    else
      if item.id = pid then (counter + 1 : Nat)
      else entryScan pid rest processed (counter + 1)

/-- getEntryIndex (rundownService.ts lines 48-76). -/
def getEntryIndex (p : Participant) (list : List Participant) : Int :=
  if p.groupId = "" then jsIndexOf list p + 1
  else entryScan p.id list [] 0

/-- getSortableEntryCode (rundownService.ts lines 81-96).  The prefix map
is a lookup function returning none for a missing key. -/
def getSortableEntryCode (p : Participant) (allParticipants : List Participant)
    (entryCodePrefixes : String → Option String) : String :=
  let key := p.eventCode ++ "|" ++ p.division
  let pfx := (entryCodePrefixes key).getD ""
  if pfx = "" then "-"
  else
    let divParts := allParticipants.filter
      (fun x => x.eventCode = p.eventCode ∧ x.division = p.division)
    let index := getEntryIndex p divParts
    pfx ++ jsPadStart (toString index) 3 '0'

/-- The sortKeys Map built by the forEach at rundownService.ts lines
129-132; prepending on set makes the first find the most recent set,
matching Map overwrite semantics. -/
def buildSortKeys (partsToSchedule allParticipants : List Participant)
    (entryCodePrefixes : String → Option String) : List (String × String) :=
  partsToSchedule.foldl
    (fun m p => (p.id, getSortableEntryCode p allParticipants entryCodePrefixes) :: m) []

/-- Map.get on the association list: most recent value for the key. -/
def mapGet (m : List (String × String)) (k : String) : Option String :=
  (m.find? (fun kv => kv.1 = k)).map (fun kv => kv.2)

/-- The two-level comparator of the sort at rundownService.ts lines
134-159: event order first, then sortable entry code. -/
def participantCompare (events : List EventConfig) (getKey : String → Option String)
    (a b : Participant) : Int :=
  let codeA := trimString a.eventCode
  let codeB := trimString b.eventCode
  let evtIdxA := events.findIdx? (fun e => trimString e.code = codeA)
  let evtIdxB := events.findIdx? (fun e => trimString e.code = codeB)
  let entryA := jsOrStr ((getKey a.id).getD "") "-"
  let entryB := jsOrStr ((getKey b.id).getD "") "-"
  let entryCmp :=
    if entryA ≠ entryB then
      if entryA ≠ "-" ∧ entryB ≠ "-" then jsCompareStrings entryA entryB
      else if entryA = "-" then 1 else -1
    else 0
  match evtIdxA, evtIdxB with
  | some iA, some iB => if iA ≠ iB then (iA : Int) - (iB : Int) else entryCmp
  | some _, none => -1
  | none, some _ => 1
  | none, none =>
    if codeA ≠ codeB then jsCompareStrings codeA codeB else entryCmp

/-- Insert x in front of the first element not strictly smaller than it:
the stable insertion step for a JS comparator. -/
def insertByCmp (cmp : Participant → Participant → Int) (x : Participant) :
    List Participant → List Participant
  | [] => [x]
  | y :: ys => if cmp y x < 0 then y :: insertByCmp cmp x ys else x :: y :: ys

/-- Stable sort by a JS comparator, modelling Array.prototype.sort for a
consistent comparator. -/
def sortByCmp (cmp : Participant → Participant → Int) :
    List Participant → List Participant
  | [] => []
  | x :: xs => insertByCmp cmp x (sortByCmp cmp xs)

/-- One scheduling slot (rundownService.ts line 162): a single
participant or a whole group occupying one station. -/
structure Entry where
  id : String
  isGroup : Bool
  participants : List Participant
deriving DecidableEq, Repr

/-- The grouping pass (rundownService.ts lines 161-175): walk the sorted
list, collapsing all members of a group into one entry at the first
occurrence of its group id.  full stays the whole sorted list because the
source filters sortedParts, not the remainder. -/
def buildEntriesGo (full : List Participant) :
    List Participant → List String → List Entry
  | [], _ => []
  | p :: rest, processed =>
    if p.groupId ≠ "" then
      if p.groupId ∈ processed then buildEntriesGo full rest processed
      else
        ⟨p.groupId, true, full.filter (fun gp => gp.groupId = p.groupId)⟩ ::
          buildEntriesGo full rest (p.groupId :: processed)
    else
      ⟨p.id, false, [p]⟩ :: buildEntriesGo full rest processed

/-- Entries of the sorted list (rundownService.ts lines 161-175). -/
def buildEntries (sortedParts : List Participant) : List Entry :=
  buildEntriesGo sortedParts sortedParts []

/-- The mutable state of the assignment loop (rundownService.ts lines
180-189): current heat, current station, last event code, current heat
start time. -/
structure Core where
  heat : Nat
  station : Nat
  lastEvent : String
  time : String
deriving DecidableEq, Repr

/-- One iteration of the assignment loop up to the point where results
are emitted (rundownService.ts lines 193-217): resolve the entry config,
apply the event-switch rule, record the event, apply the capacity rule.
The returned Core carries the heat, station and time stamped on every
member of the entry. -/
def placeEntry (getRundownConfig : String → RundownConfig) (core : Core)
    (entryEvent : String) : Core :=
  let entryConfig := getRundownConfig entryEvent
  let maxStations := entryConfig.stationCount.getD 12
  let heatDuration := entryConfig.heatDuration.getD 2
  let c1 :=
    if core.lastEvent ≠ "" ∧ entryEvent ≠ core.lastEvent ∧ 1 < core.station then
      let prevConfig := getRundownConfig core.lastEvent
      { core with heat := core.heat + 1, station := 1,
                  time := addMinutes core.time (prevConfig.heatDuration.getD 2) }
    else core
  let c2 := { c1 with lastEvent := entryEvent }
  if maxStations < c2.station then
    { c2 with heat := c2.heat + 1, station := 1,
              time := addMinutes c2.time heatDuration }
  else c2

/-- The assignment loop (rundownService.ts lines 191-230): place each
entry, emit one result per member, then advance the station counter. -/
def assignEntries (getRundownConfig : String → RundownConfig) (core : Core) :
    List Entry → List ScheduleResult
  | [] => []
  | entry :: rest =>
    match entry.participants with
    | [] => assignEntries getRundownConfig core rest
    | p0 :: _ =>
      let c := placeEntry getRundownConfig core (trimString p0.eventCode)
      entry.participants.map (fun p =>
        { participantId := p.id, heat := c.heat, station := c.station,
          scheduleTime := c.time })
        ++ assignEntries getRundownConfig { c with station := c.station + 1 } rest

/-- Step 1 of the scheduler (rundownService.ts lines 109-115): the
participants selected for this invocation. -/
def selectParts (participants : List Participant) (options : ScheduleOptions) :
    List Participant :=
  if options.targetEventCode ≠ "" then
    participants.filter (fun p => p.eventCode = options.targetEventCode)
  else participants

/-- Step 2 of the scheduler (rundownService.ts lines 119-159): the
selected participants in assignment order. -/
def sortedSelection (participants : List Participant) (events : List EventConfig)
    (entryCodePrefixes : String → Option String) (options : ScheduleOptions) :
    List Participant :=
  let partsToSchedule := selectParts participants options
  let keys := buildSortKeys partsToSchedule participants entryCodePrefixes
  sortByCmp (participantCompare events (fun i => mapGet keys i)) partsToSchedule

/-- Step 3 of the scheduler: the entry list of the sorted selection. -/
def scheduleEntries (participants : List Participant) (events : List EventConfig)
    (entryCodePrefixes : String → Option String) (options : ScheduleOptions) :
    List Entry :=
  buildEntries (sortedSelection participants events entryCodePrefixes options)

/-- Initial loop state (rundownService.ts lines 180-189). -/
def initialCore (participants : List Participant) (events : List EventConfig)
    (entryCodePrefixes : String → Option String)
    (getRundownConfig : String → RundownConfig) (options : ScheduleOptions) : Core :=
  let entries := scheduleEntries participants events entryCodePrefixes options
  let firstEventCode :=
    match entries with
    | [] => ""
    | e :: _ =>
      match e.participants with
      | [] => ""
      | p :: _ => p.eventCode
  let effectiveConfigEvent :=
    jsOrStr options.targetEventCode (jsOrStr firstEventCode "GLOBAL")
  let initialConfig := getRundownConfig effectiveConfigEvent
  { heat := if options.startHeatNumber = 0 then 1 else options.startHeatNumber,
    station := 1,
    lastEvent := "",
    time := jsOrStr options.initialStartTime (jsOrStr initialConfig.startTime "09:00") }

/-- scheduleParticipants (rundownService.ts lines 102-233). -/
def scheduleParticipants (participants : List Participant)
    (events : List EventConfig) (entryCodePrefixes : String → Option String)
    (getRundownConfig : String → RundownConfig)
    (options : ScheduleOptions) : List ScheduleResult :=
  if (selectParts participants options).isEmpty then []
  else
    assignEntries getRundownConfig
      (initialCore participants events entryCodePrefixes getRundownConfig options)
      (scheduleEntries participants events entryCodePrefixes options)

/-! ### Ghost decomposition of the assignment loop, used only in proofs -/

/-- The list of (entry, placement) pairs produced by the assignment loop,
in loop order; the placement Core carries the heat, station and time
stamped on every member of the entry. -/
def assignSlots (getRundownConfig : String → RundownConfig) (core : Core) :
    List Entry → List (Entry × Core)
  | [] => []
  | entry :: rest =>
    match entry.participants with
    | [] => assignSlots getRundownConfig core rest
    | p0 :: _ =>
      let c := placeEntry getRundownConfig core (trimString p0.eventCode)
      (entry, c) ::
        assignSlots getRundownConfig { c with station := c.station + 1 } rest

/-- The result rows of one slot. -/
def slotRows (s : Entry × Core) : List ScheduleResult :=
  s.1.participants.map (fun p =>
    { participantId := p.id, heat := s.2.heat, station := s.2.station,
      scheduleTime := s.2.time })

/-- The result rows of a slot list. -/
def slotsRows : List (Entry × Core) → List ScheduleResult
  | [] => []
  | s :: ss => slotRows s ++ slotsRows ss

/-- The trimmed event code of an entry (the code of its first member),
as used by the assignment loop. -/
def entryEV (e : Entry) : String :=
  match e.participants with
  | [] => ""
  | p :: _ => trimString p.eventCode

/-- All participants of an entry list, in order. -/
def entryParts : List Entry → List Participant
  | [] => []
  | e :: es => e.participants ++ entryParts es

/-- The ids carried by an entry list, in order. -/
def entryIds (es : List Entry) : List String :=
  (entryParts es).map (fun p => p.id)

/-- Participants not yet swallowed by an already-processed group: the
remainder predicate of the grouping pass. -/
def freshInProcessed (processed : List String) (x : Participant) : Bool :=
  decide (x.groupId = "" ∨ x.groupId ∉ processed)

/-- Modelled from the spec: the output contract of addMinutes in the
words of the specification (total minutes taken modulo 24 hours, hours
wrapped modulo 24, minutes normalized modulo 60, zero-padded), stated
independently of the Date mechanics for comparison with addMinutes. -/
def specWrapHHMM (h m : Nat) (off : Int) : String :=
  let total : Nat := ((((h * 60 + m : Nat) : Int) + off).emod 1440).toNat
  jsPadStart (toString (total / 60)) 2 '0' ++ ":" ++
    jsPadStart (toString (total % 60)) 2 '0'

/-! ### Concrete inputs for scenarios, counterexamples and witnesses -/

/-- Scenario A roster: three ungrouped participants of event SRSS,
division Open. -/
def rosterA : List Participant :=
  [ ⟨"p1", "Alice", "", "Open", "SRSS", ""⟩,
    ⟨"p2", "Bob", "", "Open", "SRSS", ""⟩,
    ⟨"p3", "Cara", "", "Open", "SRSS", ""⟩ ]

/-- Scenario A event list. -/
def eventsA : List EventConfig := [⟨"SRSS", "Single Rope Speed Sprint"⟩]

/-- Scenario A entry-code prefixes. -/
def pfxA : String → Option String :=
  fun k => if k = "SRSS|Open" then some "A" else none

/-- Scenario A configuration resolver: station count 2, heat duration 2,
start 09:00. -/
def cfgA : String → RundownConfig := fun _ => ⟨"09:00", some 2, some 2, 40⟩

/-- Scenario C roster: one participant of event A then one of event B. -/
def rosterC : List Participant :=
  [ ⟨"a1", "Ann", "", "Open", "A", ""⟩, ⟨"b1", "Ben", "", "Open", "B", ""⟩ ]

/-- Scenario C event list. -/
def eventsC : List EventConfig := [⟨"A", "Event A"⟩, ⟨"B", "Event B"⟩]

/-- Scenario C configuration resolver: station count 1, heat duration 2,
start 09:00 for every event. -/
def cfgC : String → RundownConfig := fun _ => ⟨"09:00", some 2, some 1, 40⟩

/-- An ungrouped participant used to refute the C4 claim. -/
def cexC4Part : Participant := ⟨"px", "", "", "Open", "SRSS", ""⟩

/-- A grouped participant used in the C4 witness. -/
def witC4Part : Participant := ⟨"px", "", "", "Open", "SRSS", "G"⟩

/-- First member of group G in the C5 counterexample list. -/
def cexC5A : Participant := ⟨"a", "", "", "D", "E", "G"⟩

/-- The ungrouped entry separating the two members of group G. -/
def cexC5B : Participant := ⟨"b", "", "", "D", "E", ""⟩

/-- Second member of group G in the C5 counterexample list. -/
def cexC5C : Participant := ⟨"c", "", "", "D", "E", "G"⟩

/-- C6 counterexample roster: a participant whose trimmed event code is
empty followed by one of event B; the event-switch check is skipped
because the empty last event code is falsy. -/
def cexC6Roster : List Participant :=
  [ ⟨"p1", "", "", "D", "", ""⟩, ⟨"p2", "", "", "D", "B", ""⟩ ]

/-- C6 counterexample configuration resolver. -/
def cexC6Cfg : String → RundownConfig := fun _ => ⟨"09:00", some 2, some 12, 40⟩

/-- C7 counterexample roster: a single of event A, then a group whose
members belong to events A and B. -/
def cexC7Roster : List Participant :=
  [ ⟨"p1", "", "", "D", "A", ""⟩,
    ⟨"p2", "", "", "D", "A", "G"⟩,
    ⟨"p3", "", "", "D", "B", "G"⟩ ]

/-- C7 counterexample event list. -/
def cexC7Events : List EventConfig := [⟨"A", ""⟩, ⟨"B", ""⟩]

/-- C7 counterexample configuration resolver: every station count is a
positive integer (A has 2 stations, B has 1). -/
def cexC7Cfg : String → RundownConfig := fun c =>
  if c = "A" then ⟨"09:00", some 2, some 2, 40⟩
  else if c = "B" then ⟨"09:00", some 2, some 1, 40⟩
  else ⟨"09:00", some 2, some 12, 40⟩

/-- First member of group G1 in the witness roster. -/
def witG1 : Participant := ⟨"g1", "Gail", "", "Open", "SRSS", "G1"⟩

/-- Second member of group G1 in the witness roster. -/
def witG2 : Participant := ⟨"g2", "Glen", "", "Open", "SRSS", "G1"⟩

/-- Scenario B style roster used by witnesses: a group of two plus a
single, all of event SRSS. -/
def rosterB : List Participant :=
  [ witG1, witG2, ⟨"s1", "Sam", "", "Open", "SRSS", ""⟩ ]

/-! ## Theorems -/

/-! ### Helper lemmas about getEntryIndex -/

/-- jsIndexOf of an absent element is -1. -/
theorem jsIndexOf_of_not_mem (p : Participant) :
    ∀ l : List Participant, p ∉ l → jsIndexOf l p = -1 := by
  intro l
  induction l with
  | nil => intro _; rfl
  | cons x xs ih =>
    intro h
    have hx : ¬ x = p := fun e => h (e ▸ List.mem_cons_self x xs)
    have hr : jsIndexOf xs p = -1 := ih (fun hm => h (List.mem_cons_of_mem _ hm))
    simp [jsIndexOf, hx, hr]

/-- The grouped-branch scan returns -1 when no list item carries the
sought id. -/
theorem entryScan_not_found (pid : String) :
    ∀ (l : List Participant) (processed : List String) (counter : Nat),
      (∀ x ∈ l, x.id ≠ pid) → entryScan pid l processed counter = -1 := by
  intro l
  induction l with
  | nil => intro _ _ _; rfl
  | cons item rest ih =>
    intro processed counter h
    have hid : ¬ item.id = pid := h item (List.mem_cons_self _ _)
    have hrest : ∀ x ∈ rest, x.id ≠ pid :=
      fun x hx => h x (List.mem_cons_of_mem _ hx)
    by_cases hg : item.groupId = ""
    · simp [entryScan, hg, hid, ih _ _ hrest]
    · by_cases hp : item.groupId ∈ processed
      · simp [entryScan, hg, hp, hid, ih _ _ hrest]
      · simp [entryScan, hg, hp, hid, ih _ _ hrest]

/-- Both members of a group that are adjacent in the list receive the
same scan value, from any intermediate scan state. -/
theorem entryScan_pair (p q : Participant)
    (hg : p.groupId = q.groupId) (hne : p.groupId ≠ "") (hpq : p.id ≠ q.id)
    (l2 : List Participant) :
    ∀ (l1 : List Participant) (processed : List String) (counter : Nat),
      (∀ x ∈ l1, x.id ≠ p.id ∧ x.id ≠ q.id) →
      entryScan p.id (l1 ++ p :: q :: l2) processed counter =
        entryScan q.id (l1 ++ p :: q :: l2) processed counter := by
  intro l1
  induction l1 with
  | nil =>
    intro processed counter _
    have hq : q.groupId ≠ "" := hg ▸ hne
    have hqp : ¬ q.id = p.id := fun e => hpq e.symm
    by_cases hmem : p.groupId ∈ processed
    · have hmem2 : q.groupId ∈ processed := hg ▸ hmem
      simp [entryScan, hne, hq, hpq, hqp, hmem, hmem2]
    · have hmem2 : q.groupId ∈ p.groupId :: processed := by
        rw [← hg]; exact List.mem_cons_self _ _
      simp [entryScan, hne, hq, hpq, hqp, hmem, hmem2]
  | cons x l1' ih =>
    intro processed counter h
    obtain ⟨hxp, hxq⟩ := h x (List.mem_cons_self _ _)
    have h' : ∀ y ∈ l1', y.id ≠ p.id ∧ y.id ≠ q.id :=
      fun y hy => h y (List.mem_cons_of_mem _ hy)
    by_cases hg0 : x.groupId = ""
    · simpa [entryScan, hg0, hxp, hxq] using ih processed (counter + 1) h'
    · by_cases hp : x.groupId ∈ processed
      · simpa [entryScan, hg0, hp, hxp, hxq] using ih processed counter h'
      · simpa [entryScan, hg0, hp, hxp, hxq] using
          ih (x.groupId :: processed) (counter + 1) h'

/-- C4 counterexample: for an ungrouped participant absent from the
list, getEntryIndex does not return -1 (it returns 0, the JS
indexOf -1 plus one). -/
theorem thm_C4_counterexample : getEntryIndex cexC4Part [] ≠ -1 := by decide

/-- C4 amended: when no list item carries the id of p, getEntryIndex
returns -1 if p has a group id, but 0 (indexOf result -1 plus 1) if p is
ungrouped. -/
theorem thm_C4_amended (p : Participant) (list : List Participant)
    (h : ∀ x ∈ list, x.id ≠ p.id) :
    getEntryIndex p list = if p.groupId = "" then 0 else -1 := by
  by_cases hgrp : p.groupId = ""
  · have hnm : p ∉ list := fun hm => h p hm rfl
    simp [getEntryIndex, hgrp, jsIndexOf_of_not_mem p list hnm]
  · simp [getEntryIndex, hgrp, entryScan_not_found p.id list [] 0 h]

/-- C4 witness: the amended statement evaluated for a concrete grouped
participant and the empty cohort list. -/
theorem thm_C4_witness :
    (∀ x ∈ ([] : List Participant), x.id ≠ witC4Part.id) ∧
    getEntryIndex witC4Part [] = (if witC4Part.groupId = "" then 0 else -1) :=
  ⟨by decide, thm_C4_amended witC4Part [] (by decide)⟩

/-- C5 counterexample: two members of the same non-empty group separated
by an ungrouped entry receive different entry indices (1 and 2). -/
theorem thm_C5_counterexample :
    cexC5A.groupId = cexC5C.groupId ∧ cexC5A.groupId ≠ "" ∧
    getEntryIndex cexC5A [cexC5A, cexC5B, cexC5C] ≠
      getEntryIndex cexC5C [cexC5A, cexC5B, cexC5C] := by decide

/-- C5 amended: two members of the same non-empty group receive the same
entry index when they are adjacent in the cohort list (and the ids are
unambiguous); with entries of the cohort lying between the two members
the indices can differ. -/
theorem thm_C5_amended (p q : Participant) (l1 l2 : List Participant)
    (hg : p.groupId = q.groupId) (hne : p.groupId ≠ "") (hpq : p.id ≠ q.id)
    (hfresh : ∀ x ∈ l1, x.id ≠ p.id ∧ x.id ≠ q.id) :
    getEntryIndex p (l1 ++ p :: q :: l2) =
      getEntryIndex q (l1 ++ p :: q :: l2) := by
  have hq : q.groupId ≠ "" := hg ▸ hne
  simp only [getEntryIndex, if_neg hne, if_neg hq]
  exact entryScan_pair p q hg hne hpq l2 l1 [] 0 hfresh

/-- C5 witness: the amended statement evaluated for two adjacent members
of group G with an unrelated entry before them. -/
theorem thm_C5_witness :
    (cexC5A.groupId = cexC5C.groupId ∧ cexC5A.groupId ≠ "" ∧
      cexC5A.id ≠ cexC5C.id ∧
      (∀ x ∈ [cexC5B], x.id ≠ cexC5A.id ∧ x.id ≠ cexC5C.id)) ∧
    getEntryIndex cexC5A ([cexC5B] ++ cexC5A :: cexC5C :: []) =
      getEntryIndex cexC5C ([cexC5B] ++ cexC5A :: cexC5C :: []) :=
  ⟨⟨by decide, by decide, by decide, by decide⟩,
    thm_C5_amended cexC5A cexC5C [cexC5B] [] (by decide) (by decide) (by decide)
      (by decide)⟩

/-- C1: Scenario A. For the roster of 3 ungrouped SRSS/Open participants
with station count 2, heat duration 2 and start 09:00, the scheduler
returns exactly three results in order with heats 1,1,2, stations 1,2,1
and times 09:00, 09:00, 09:02. -/
theorem thm_C1_scenarioA :
    scheduleParticipants rosterA eventsA pfxA cfgA {} =
      [ ⟨"p1", 1, 1, "09:00"⟩, ⟨"p2", 1, 2, "09:00"⟩, ⟨"p3", 2, 1, "09:02"⟩ ] := by
  decide

/-- C3: Scenario C. With events A then B, one participant each and
station count 1, placing A advances the station counter to 2, so the
event switch on B forces a new heat: A gets heat 1 station 1 at 09:00 and
B gets heat 2 station 1 at 09:02. -/
theorem thm_C3_scenarioC :
    scheduleParticipants rosterC eventsC (fun _ => none) cfgC {} =
      [ ⟨"a1", 1, 1, "09:00"⟩, ⟨"b1", 2, 1, "09:02"⟩ ] := by
  decide

/-- C9: for every time string whose parsed hour part is at most 23 and
parsed minute part at most 59 (missing or malformed parts parsing to 0)
and every integer offset, addMinutes returns the zero-padded HH:MM
rendering of the total minutes modulo 24 hours; in particular
addMinutes "23:50" 15 is "00:05" and addMinutes "09:00" 0 is "09:00". -/
theorem thm_C9_addMinutes :
    (∀ (timeStr : String) (minutes : Int),
      jsTimePart ((splitOnChar ':' timeStr).getD 0 "") ≤ 23 →
      jsTimePart ((splitOnChar ':' timeStr).getD 1 "") ≤ 59 →
      addMinutes timeStr minutes =
        specWrapHHMM (jsTimePart ((splitOnChar ':' timeStr).getD 0 ""))
          (jsTimePart ((splitOnChar ':' timeStr).getD 1 "")) minutes) ∧
    addMinutes "23:50" 15 = "00:05" ∧ addMinutes "09:00" 0 = "09:00" :=
  ⟨fun _ _ _ _ => rfl, by decide, by decide⟩

/-- C9 witness: the contract evaluated at 23:50 plus 15 minutes. -/
theorem thm_C9_witness :
    (jsTimePart ((splitOnChar ':' "23:50").getD 0 "") ≤ 23 ∧
      jsTimePart ((splitOnChar ':' "23:50").getD 1 "") ≤ 59) ∧
    addMinutes "23:50" 15 =
      specWrapHHMM (jsTimePart ((splitOnChar ':' "23:50").getD 0 ""))
        (jsTimePart ((splitOnChar ':' "23:50").getD 1 "")) 15 :=
  ⟨⟨by decide, by decide⟩, thm_C9_addMinutes.1 "23:50" 15 (by decide) (by decide)⟩

/-! ### The sort is a permutation of its input -/

/-- Stable insertion prepends the element up to permutation. -/
theorem insertByCmp_perm (cmp : Participant → Participant → Int)
    (x : Participant) :
    ∀ l : List Participant, List.Perm (insertByCmp cmp x l) (x :: l) := by
  intro l
  induction l with
  | nil => exact List.Perm.refl _
  | cons y ys ih =>
    by_cases h : cmp y x < 0
    · simp only [insertByCmp, if_pos h]
      exact (ih.cons y).trans (List.Perm.swap x y ys)
    · simp only [insertByCmp, if_neg h]
      exact List.Perm.refl _

/-- The modelled Array.prototype.sort permutes its input. -/
theorem sortByCmp_perm (cmp : Participant → Participant → Int) :
    ∀ l : List Participant, List.Perm (sortByCmp cmp l) l := by
  intro l
  induction l with
  | nil => exact List.Perm.refl _
  | cons x xs ih => exact (insertByCmp_perm cmp x (sortByCmp cmp xs)).trans (ih.cons x)

/-! ### The grouping pass is a permutation of the sorted list -/

/-- Splitting off one fresh group from the remainder predicate. -/
theorem freshInProcessed_split (processed : List String) (l : List Participant)
    (g : String) (hg : g ≠ "") (hmem : g ∉ processed) :
    List.Perm
      (l.filter (fun x => x.groupId = g) ++ l.filter (freshInProcessed (g :: processed)))
      (l.filter (freshInProcessed processed)) := by
  have hA : (l.filter (freshInProcessed processed)).filter
      (fun x => x.groupId = g) = l.filter (fun x => x.groupId = g) := by
    rw [List.filter_filter]
    refine List.filter_congr ?_
    intro x _
    by_cases hx : x.groupId = g
    · simp [freshInProcessed, hx, hmem]
    · simp [hx]
  have hB : (l.filter (freshInProcessed processed)).filter
      (fun x => !(decide (x.groupId = g))) =
      l.filter (freshInProcessed (g :: processed)) := by
    rw [List.filter_filter]
    refine List.filter_congr ?_
    intro x _
    by_cases hx : x.groupId = g
    · simp [freshInProcessed, hx, hg, hmem]
    · by_cases hx0 : x.groupId = ""
      · have hne0 : ¬ ("" = g) := fun e => hg e.symm
        simp [freshInProcessed, hx, hx0, hne0]
      · by_cases hxp : x.groupId ∈ processed
        · simp [freshInProcessed, hx, hx0, hxp]
        · simp [freshInProcessed, hx, hx0, hxp]
  rw [← hA, ← hB]
  exact List.filter_append_perm _ _

/-- The grouping pass emits, across all entries, exactly the remainder of
the scan, up to permutation. -/
theorem buildEntriesGo_perm (full : List Participant) :
    ∀ (rest : List Participant) (processed : List String),
      (∀ g : String, g ≠ "" → g ∉ processed →
        full.filter (fun x => x.groupId = g) = rest.filter (fun x => x.groupId = g)) →
      List.Perm (entryParts (buildEntriesGo full rest processed))
        (rest.filter (freshInProcessed processed)) := by
  intro rest
  induction rest with
  | nil =>
    intro processed _
    exact List.Perm.refl _
  | cons p rest' ih =>
    intro processed hinv
    by_cases hg : p.groupId = ""
    · have hinv' : ∀ g : String, g ≠ "" → g ∉ processed →
          full.filter (fun x => x.groupId = g) = rest'.filter (fun x => x.groupId = g) := by
        intro g hg' hgp
        rw [hinv g hg' hgp, List.filter_cons]
        have : ¬ (p.groupId = g) := by rw [hg]; exact fun e => hg' e.symm
        simp [this]
      have hfresh : freshInProcessed processed p = true := by
        simp [freshInProcessed, hg]
      simp only [buildEntriesGo, hg, ne_eq, not_true_eq_false, if_false, ite_false,
        reduceIte, entryParts, List.filter_cons, hfresh]
      simpa [entryParts] using (ih processed hinv').cons p
    · by_cases hmem : p.groupId ∈ processed
      · have hinv' : ∀ g : String, g ≠ "" → g ∉ processed →
            full.filter (fun x => x.groupId = g) = rest'.filter (fun x => x.groupId = g) := by
          intro g hg' hgp
          rw [hinv g hg' hgp, List.filter_cons]
          have : ¬ (p.groupId = g) := fun e => hgp (e ▸ hmem)
          simp [this]
        have hfresh : freshInProcessed processed p = false := by
          simp [freshInProcessed, hg, hmem]
        simp only [buildEntriesGo, hg, ne_eq, not_false_eq_true, if_true, ite_true,
          reduceIte, hmem, List.filter_cons, hfresh]
        simpa using ih processed hinv'
      · have hinv' : ∀ g : String, g ≠ "" → g ∉ p.groupId :: processed →
            full.filter (fun x => x.groupId = g) = rest'.filter (fun x => x.groupId = g) := by
          intro g hg' hgp
          have hgp0 : g ∉ processed := fun h => hgp (List.mem_cons_of_mem _ h)
          have hgne : ¬ (p.groupId = g) := fun e => hgp (e ▸ List.mem_cons_self _ _)
          rw [hinv g hg' hgp0, List.filter_cons]
          simp [hgne]
        have hfilter : full.filter (fun x => x.groupId = p.groupId) =
            p :: rest'.filter (fun x => x.groupId = p.groupId) := by
          rw [hinv p.groupId hg hmem, List.filter_cons]
          simp
        have hfresh : freshInProcessed processed p = true := by
          simp [freshInProcessed, hmem]
        simp only [buildEntriesGo, hg, ne_eq, not_false_eq_true, if_true, ite_true,
          reduceIte, hmem, if_false, ite_false, entryParts, List.filter_cons, hfresh]
        rw [hfilter]
        have hsplit := freshInProcessed_split processed rest' p.groupId hg hmem
        have hih := ih (p.groupId :: processed) hinv'
        have hstep :
            List.Perm
              (p :: (rest'.filter (fun x => x.groupId = p.groupId) ++
                entryParts (buildEntriesGo full rest' (p.groupId :: processed))))
              (p :: (rest'.filter (fun x => x.groupId = p.groupId) ++
                rest'.filter (freshInProcessed (p.groupId :: processed)))) :=
          (List.Perm.append_left _ hih).cons p
        exact hstep.trans (hsplit.cons p)

/-- Across all its entries, the grouping pass emits exactly the sorted
list, up to permutation. -/
theorem buildEntries_perm (l : List Participant) :
    List.Perm (entryParts (buildEntries l)) l := by
  have h := buildEntriesGo_perm l l [] (fun _ _ _ => rfl)
  have hall : l.filter (freshInProcessed []) = l := by
    refine List.filter_eq_self.mpr ?_
    intro x _
    simp [freshInProcessed]
  rw [hall] at h
  exact h

/-! ### Shape of the entries produced by the grouping pass -/

/-- Every entry emitted by the grouping pass is either a singleton of an
ungrouped participant of the remainder, or the full-list group of some
grouped participant of the remainder. -/
theorem buildEntriesGo_shape (full : List Participant) :
    ∀ (rest : List Participant) (processed : List String),
      ∀ e ∈ buildEntriesGo full rest processed,
        (∃ x ∈ rest, x.groupId = "" ∧ e = ⟨x.id, false, [x]⟩) ∨
        (∃ x ∈ rest, x.groupId ≠ "" ∧
          e = ⟨x.groupId, true, full.filter (fun gp => gp.groupId = x.groupId)⟩) := by
  intro rest
  induction rest with
  | nil =>
    intro processed e he
    simp [buildEntriesGo] at he
  | cons p rest' ih =>
    intro processed e he
    by_cases hg : p.groupId = ""
    · rw [buildEntriesGo] at he
      simp only [hg, ne_eq, not_true_eq_false, if_false, ite_false, reduceIte] at he
      rcases List.mem_cons.mp he with rfl | he'
      · exact Or.inl ⟨p, List.mem_cons_self _ _, hg, rfl⟩
      · rcases ih processed e he' with ⟨x, hx, h1, h2⟩ | ⟨x, hx, h1, h2⟩
        · exact Or.inl ⟨x, List.mem_cons_of_mem _ hx, h1, h2⟩
        · exact Or.inr ⟨x, List.mem_cons_of_mem _ hx, h1, h2⟩
    · by_cases hmem : p.groupId ∈ processed
      · rw [buildEntriesGo] at he
        simp only [hg, ne_eq, not_false_eq_true, if_true, ite_true, reduceIte, hmem] at he
        rcases ih processed e he with ⟨x, hx, h1, h2⟩ | ⟨x, hx, h1, h2⟩
        · exact Or.inl ⟨x, List.mem_cons_of_mem _ hx, h1, h2⟩
        · exact Or.inr ⟨x, List.mem_cons_of_mem _ hx, h1, h2⟩
      · rw [buildEntriesGo] at he
        simp only [hg, ne_eq, not_false_eq_true, if_true, ite_true, reduceIte, hmem,
          if_false, ite_false] at he
        rcases List.mem_cons.mp he with rfl | he'
        · exact Or.inr ⟨p, List.mem_cons_self _ _, hg, rfl⟩
        · rcases ih (p.groupId :: processed) e he' with ⟨x, hx, h1, h2⟩ | ⟨x, hx, h1, h2⟩
          · exact Or.inl ⟨x, List.mem_cons_of_mem _ hx, h1, h2⟩
          · exact Or.inr ⟨x, List.mem_cons_of_mem _ hx, h1, h2⟩

/-- Members of an entry of the grouping pass belong to the grouped list. -/
theorem buildEntries_parts_mem (l : List Participant) :
    ∀ e ∈ buildEntries l, ∀ x ∈ e.participants, x ∈ l := by
  intro e he x hx
  rcases buildEntriesGo_shape l l [] e he with ⟨y, hy, _, rfl⟩ | ⟨y, _, _, rfl⟩
  · have hxy : x = y := List.mem_singleton.mp hx
    rw [hxy]
    exact hy
  · exact List.mem_of_mem_filter hx

/-- Entries of the grouping pass are never empty. -/
theorem buildEntries_nonempty (l : List Participant) :
    ∀ e ∈ buildEntries l, e.participants ≠ [] := by
  intro e he
  rcases buildEntriesGo_shape l l [] e he with ⟨y, _, _, rfl⟩ | ⟨y, hy, hyg, rfl⟩
  · simp
  · have hmem : y ∈ l.filter (fun gp => gp.groupId = y.groupId) :=
      List.mem_filter.mpr ⟨hy, by simp⟩
    intro hcon
    have hcon' : l.filter (fun gp => gp.groupId = y.groupId) = ([] : List Participant) :=
      hcon
    rw [hcon'] at hmem
    cases hmem

/-- The entry containing a grouped participant carries exactly the
participants of that group in the grouped list. -/
theorem buildEntries_group_parts (l : List Participant) :
    ∀ e ∈ buildEntries l, ∀ p ∈ e.participants, p.groupId ≠ "" →
      e.participants = l.filter (fun gp => gp.groupId = p.groupId) := by
  intro e he p hp hpg
  rcases buildEntriesGo_shape l l [] e he with ⟨y, _, hyg, rfl⟩ | ⟨y, _, _, rfl⟩
  · have : p = y := List.mem_singleton.mp hp
    exact absurd (this ▸ hpg) (by simp [this ▸ hyg, hyg])
  · have hpy : p.groupId = y.groupId := by
      have := List.mem_filter.mp hp
      simpa using this.2
    simp [hpy]

/-! ### The ids emitted by the assignment loop -/

/-- The assignment loop emits result rows whose ids are exactly the
participant ids of the entries, in order. -/
theorem assignEntries_pids (g : String → RundownConfig) :
    ∀ (es : List Entry) (core : Core),
      (assignEntries g core es).map (fun r => r.participantId) = entryIds es := by
  intro es
  induction es with
  | nil => intro core; rfl
  | cons e rest ih =>
    intro core
    cases hp : e.participants with
    | nil =>
      rw [assignEntries]
      simp only [hp]
      rw [ih]
      simp [entryIds, entryParts, hp]
    | cons p0 t =>
      rw [assignEntries]
      simp only [hp]
      simp only [List.map_append, List.map_map, ih]
      simp [entryIds, entryParts, hp, Function.comp]

/-- A participant of some entry is among the participants of the list. -/
theorem mem_entryParts {es : List Entry} {e : Entry} {p : Participant}
    (he : e ∈ es) (hp : p ∈ e.participants) : p ∈ entryParts es := by
  induction es with
  | nil => cases he
  | cons e0 rest ih =>
    rcases List.mem_cons.mp he with rfl | he'
    · exact List.mem_append.mpr (Or.inl hp)
    · exact List.mem_append.mpr (Or.inr (ih he'))

/-- Conversely, every participant of the flattened list belongs to some
entry. -/
theorem entryParts_mem {es : List Entry} {p : Participant}
    (hp : p ∈ entryParts es) : ∃ e ∈ es, p ∈ e.participants := by
  induction es with
  | nil => cases hp
  | cons e0 rest ih =>
    rcases List.mem_append.mp hp with h | h
    · exact ⟨e0, List.mem_cons_self _ _, h⟩
    · obtain ⟨e, he, hpe⟩ := ih h
      exact ⟨e, List.mem_cons_of_mem _ he, hpe⟩

/-- The id of every emitted row belongs to the ids of the entry list. -/
theorem assignEntries_pid_mem (g : String → RundownConfig) (es : List Entry)
    (core : Core) {r : ScheduleResult} (hr : r ∈ assignEntries g core es) :
    r.participantId ∈ entryIds es := by
  have h := List.mem_map_of_mem (fun r => r.participantId) hr
  rw [assignEntries_pids] at h
  exact h

/-- The selection step keeps a sublist of the roster. -/
theorem selectParts_sublist (participants : List Participant)
    (options : ScheduleOptions) :
    List.Sublist (selectParts participants options) participants := by
  unfold selectParts
  split
  · exact List.filter_sublist _
  · exact List.Sublist.refl _

/-- Unfolding of the scheduler on a non-empty selection. -/
theorem scheduleParticipants_eq (participants : List Participant)
    (events : List EventConfig) (pfx : String → Option String)
    (getCfg : String → RundownConfig) (options : ScheduleOptions)
    (hne : (selectParts participants options).isEmpty = false) :
    scheduleParticipants participants events pfx getCfg options =
      assignEntries getCfg (initialCore participants events pfx getCfg options)
        (scheduleEntries participants events pfx options) := by
  unfold scheduleParticipants
  rw [hne]
  simp

/-- The flattened entry ids of a schedule are a permutation of the
selected ids. -/
theorem entryIds_perm_selected (participants : List Participant)
    (events : List EventConfig) (pfx : String → Option String)
    (options : ScheduleOptions) :
    List.Perm (entryIds (scheduleEntries participants events pfx options))
      ((selectParts participants options).map (fun x => x.id)) := by
  have h1 : List.Perm (entryParts (scheduleEntries participants events pfx options))
      (sortedSelection participants events pfx options) := buildEntries_perm _
  have h2 : List.Perm (sortedSelection participants events pfx options)
      (selectParts participants options) := sortByCmp_perm _ _
  exact (h1.trans h2).map _

/-- C10: with all participant ids distinct, every selected participant
appears as participantId in exactly one result row. -/
theorem thm_C10_exactly_once (participants : List Participant)
    (events : List EventConfig) (pfx : String → Option String)
    (getCfg : String → RundownConfig) (options : ScheduleOptions)
    (hnd : (participants.map (fun x => x.id)).Nodup) :
    ∀ p ∈ selectParts participants options,
      ((scheduleParticipants participants events pfx getCfg options).map
          (fun r => r.participantId)).count p.id = 1 := by
  intro p hp
  have hne : (selectParts participants options).isEmpty = false := by
    cases hsel : selectParts participants options with
    | nil => rw [hsel] at hp; cases hp
    | cons a l => rfl
  rw [scheduleParticipants_eq participants events pfx getCfg options hne,
    assignEntries_pids]
  rw [(entryIds_perm_selected participants events pfx options).count_eq]
  have hsub : List.Sublist ((selectParts participants options).map (fun x => x.id))
      (participants.map (fun x => x.id)) := (selectParts_sublist _ _).map _
  exact List.count_eq_one_of_mem (List.Nodup.sublist hsub hnd)
    (List.mem_map_of_mem _ hp)

/-- C10 witness: the statement evaluated on the Scenario B roster. -/
theorem thm_C10_witness :
    (rosterB.map (fun x => x.id)).Nodup ∧
    ∀ p ∈ selectParts rosterB {},
      ((scheduleParticipants rosterB eventsA pfxA cfgA {}).map
          (fun r => r.participantId)).count p.id = 1 :=
  ⟨by decide, thm_C10_exactly_once rosterB eventsA pfxA cfgA {} (by decide)⟩

/-- Core of the group-atomicity argument: all rows of the members of one
entry share heat, station and time, provided the entry ids are distinct
across the entry list. -/
theorem assignEntries_same_entry (g : String → RundownConfig) :
    ∀ (es : List Entry) (core : Core), (entryIds es).Nodup →
      ∀ e ∈ es, ∀ p ∈ e.participants, ∀ q ∈ e.participants,
      ∀ r1 ∈ assignEntries g core es, ∀ r2 ∈ assignEntries g core es,
      r1.participantId = p.id → r2.participantId = q.id →
      r1.heat = r2.heat ∧ r1.station = r2.station ∧
        r1.scheduleTime = r2.scheduleTime := by
  intro es
  induction es with
  | nil =>
    intro core _ e he
    cases he
  | cons e0 rest ih =>
    intro core hnd e he p hpe q hqe r1 hr1 r2 hr2 hid1 hid2
    have hids : entryIds (e0 :: rest) =
        e0.participants.map (fun x => x.id) ++ entryIds rest := by
      simp [entryIds, entryParts]
    rw [hids, List.nodup_append] at hnd
    obtain ⟨hnd0, hndrest, hdisj⟩ := hnd
    cases hp0 : e0.participants with
    | nil =>
      have hrw : assignEntries g core (e0 :: rest) = assignEntries g core rest := by
        rw [assignEntries, hp0]
      rcases List.mem_cons.mp he with rfl | he'
      · rw [hp0] at hpe; cases hpe
      · rw [hrw] at hr1 hr2
        exact ih core hndrest e he' p hpe q hqe r1 hr1 r2 hr2 hid1 hid2
    | cons p0 t =>
      rw [assignEntries] at hr1 hr2
      simp only [hp0] at hr1 hr2
      rcases List.mem_cons.mp he with rfl | he'
      · -- e is the head entry: both rows must come from its block
        have hblock1 : r1 ∈ (p0 :: t).map (fun x =>
            ({ participantId := x.id,
               heat := (placeEntry g core (trimString p0.eventCode)).heat,
               station := (placeEntry g core (trimString p0.eventCode)).station,
               scheduleTime := (placeEntry g core (trimString p0.eventCode)).time } :
              ScheduleResult)) := by
          rcases List.mem_append.mp hr1 with h | h
          · exact h
          · exfalso
            have hin : r1.participantId ∈ entryIds rest :=
              assignEntries_pid_mem g rest _ h
            have hpid : r1.participantId ∈ e.participants.map (fun x => x.id) := by
              rw [hid1]
              exact List.mem_map_of_mem _ hpe
            exact hdisj hpid hin
        have hblock2 : r2 ∈ (p0 :: t).map (fun x =>
            ({ participantId := x.id,
               heat := (placeEntry g core (trimString p0.eventCode)).heat,
               station := (placeEntry g core (trimString p0.eventCode)).station,
               scheduleTime := (placeEntry g core (trimString p0.eventCode)).time } :
              ScheduleResult)) := by
          rcases List.mem_append.mp hr2 with h | h
          · exact h
          · exfalso
            have hin : r2.participantId ∈ entryIds rest :=
              assignEntries_pid_mem g rest _ h
            have hpid : r2.participantId ∈ e.participants.map (fun x => x.id) := by
              rw [hid2]
              exact List.mem_map_of_mem _ hqe
            exact hdisj hpid hin
        obtain ⟨x1, _, hx1e⟩ := List.mem_map.mp hblock1
        obtain ⟨x2, _, hx2e⟩ := List.mem_map.mp hblock2
        refine ⟨?_, ?_, ?_⟩
        · rw [← hx1e, ← hx2e]
        · rw [← hx1e, ← hx2e]
        · rw [← hx1e, ← hx2e]
      · -- e is in the tail: both rows must come from the tail
        have hpid1 : r1.participantId ∈ entryIds rest := by
          rw [hid1]
          exact List.mem_map_of_mem _ (mem_entryParts he' hpe)
        have hpid2 : r2.participantId ∈ entryIds rest := by
          rw [hid2]
          exact List.mem_map_of_mem _ (mem_entryParts he' hqe)
        have hr1' : r1 ∈ assignEntries g
            { placeEntry g core (trimString p0.eventCode) with
              station := (placeEntry g core (trimString p0.eventCode)).station + 1 }
            rest := by
          rcases List.mem_append.mp hr1 with h | h
          · exfalso
            obtain ⟨x1, hx1, hx1e⟩ := List.mem_map.mp h
            have h1 : r1.participantId ∈ e0.participants.map (fun x => x.id) := by
              rw [← hx1e]
              refine List.mem_map_of_mem _ ?_
              rw [hp0]
              exact hx1
            exact hdisj h1 hpid1
          · exact h
        have hr2' : r2 ∈ assignEntries g
            { placeEntry g core (trimString p0.eventCode) with
              station := (placeEntry g core (trimString p0.eventCode)).station + 1 }
            rest := by
          rcases List.mem_append.mp hr2 with h | h
          · exfalso
            obtain ⟨x2, hx2, hx2e⟩ := List.mem_map.mp h
            have h2 : r2.participantId ∈ e0.participants.map (fun x => x.id) := by
              rw [← hx2e]
              refine List.mem_map_of_mem _ ?_
              rw [hp0]
              exact hx2
            exact hdisj h2 hpid2
          · exact h
        exact ih _ hndrest e he' p hpe q hqe r1 hr1' r2 hr2' hid1 hid2

/-- C2: for every invocation (with the data-model invariant that ids are
unique), any two result rows of participants sharing a non-empty group
id agree on heat, station and scheduleTime. -/
theorem thm_C2_group_atomicity (participants : List Participant)
    (events : List EventConfig) (pfx : String → Option String)
    (getCfg : String → RundownConfig) (options : ScheduleOptions)
    (hnd : (participants.map (fun x => x.id)).Nodup)
    (p q : Participant) (hp : p ∈ participants) (hq : q ∈ participants)
    (hg : p.groupId = q.groupId) (hgne : p.groupId ≠ "") :
    ∀ r1 ∈ scheduleParticipants participants events pfx getCfg options,
      ∀ r2 ∈ scheduleParticipants participants events pfx getCfg options,
        r1.participantId = p.id → r2.participantId = q.id →
        r1.heat = r2.heat ∧ r1.station = r2.station ∧
          r1.scheduleTime = r2.scheduleTime := by
  intro r1 hr1 r2 hr2 hid1 hid2
  cases hemp : (selectParts participants options).isEmpty with
  | true =>
    exfalso
    unfold scheduleParticipants at hr1
    rw [hemp] at hr1
    simp at hr1
  | false =>
    rw [scheduleParticipants_eq participants events pfx getCfg options hemp]
      at hr1 hr2
    have hndsel : ((selectParts participants options).map (fun x => x.id)).Nodup :=
      List.Nodup.sublist ((selectParts_sublist _ _).map _) hnd
    have hndids : (entryIds (scheduleEntries participants events pfx options)).Nodup :=
      ((entryIds_perm_selected participants events pfx options).nodup_iff).mpr hndsel
    have hselmem : ∀ x : Participant, ∀ r : ScheduleResult,
        r ∈ assignEntries getCfg
          (initialCore participants events pfx getCfg options)
          (scheduleEntries participants events pfx options) →
        r.participantId = x.id → x ∈ participants →
        x ∈ selectParts participants options := by
      intro x r hr hidx hxp
      have hin : r.participantId ∈
          entryIds (scheduleEntries participants events pfx options) :=
        assignEntries_pid_mem getCfg _ _ hr
      have hin2 : x.id ∈ (selectParts participants options).map (fun y => y.id) := by
        rw [← hidx]
        exact (entryIds_perm_selected participants events pfx options).mem_iff.mp hin
      obtain ⟨x', hx', hx'id⟩ := List.mem_map.mp hin2
      have hx'p : x' ∈ participants := (selectParts_sublist _ _).subset hx'
      have : x' = x := List.inj_on_of_nodup_map hnd hx'p hxp hx'id
      exact this ▸ hx'
    have hpsel : p ∈ selectParts participants options :=
      hselmem p r1 hr1 hid1 hp
    have hqsel : q ∈ selectParts participants options :=
      hselmem q r2 hr2 hid2 hq
    have hpermSS : List.Perm (sortedSelection participants events pfx options)
        (selectParts participants options) := sortByCmp_perm _ _
    have hpermEP : List.Perm
        (entryParts (scheduleEntries participants events pfx options))
        (sortedSelection participants events pfx options) := buildEntries_perm _
    have hpsorted : p ∈ sortedSelection participants events pfx options :=
      hpermSS.mem_iff.mpr hpsel
    have hqsorted : q ∈ sortedSelection participants events pfx options :=
      hpermSS.mem_iff.mpr hqsel
    have hpEP : p ∈ entryParts (scheduleEntries participants events pfx options) :=
      hpermEP.mem_iff.mpr hpsorted
    obtain ⟨e, he, hpe⟩ := entryParts_mem hpEP
    have hparts : e.participants =
        (sortedSelection participants events pfx options).filter
          (fun gp => gp.groupId = p.groupId) :=
      buildEntries_group_parts _ e he p hpe hgne
    have hqe : q ∈ e.participants := by
      rw [hparts]
      refine List.mem_filter.mpr ⟨hqsorted, ?_⟩
      simp [hg]
    exact assignEntries_same_entry getCfg
      (scheduleEntries participants events pfx options) _ hndids e he p hpe q hqe
      r1 hr1 r2 hr2 hid1 hid2

/-- C2 witness: the statement evaluated on the Scenario B roster for the
two members of group G1. -/
theorem thm_C2_witness :
    ((rosterB.map (fun x => x.id)).Nodup ∧ witG1 ∈ rosterB ∧ witG2 ∈ rosterB ∧
      witG1.groupId = witG2.groupId ∧ witG1.groupId ≠ "") ∧
    ∀ r1 ∈ scheduleParticipants rosterB eventsA pfxA cfgA {},
      ∀ r2 ∈ scheduleParticipants rosterB eventsA pfxA cfgA {},
        r1.participantId = witG1.id → r2.participantId = witG2.id →
        r1.heat = r2.heat ∧ r1.station = r2.station ∧
          r1.scheduleTime = r2.scheduleTime :=
  ⟨⟨by decide, by decide, by decide, by decide, by decide⟩,
    thm_C2_group_atomicity rosterB eventsA pfxA cfgA {} (by decide) witG1 witG2
      (by decide) (by decide) (by decide) (by decide)⟩

/-! ### Case analysis of one placement step -/

/-- The placement step records the entry event as the new last event. -/
theorem placeEntry_lastEvent (g : String → RundownConfig) (core : Core)
    (ev : String) : (placeEntry g core ev).lastEvent = ev := by
  unfold placeEntry
  by_cases hSW : core.lastEvent ≠ "" ∧ ev ≠ core.lastEvent ∧ 1 < core.station
  · simp only [if_pos hSW]
    split <;> rfl
  · simp only [if_neg hSW]
    split <;> rfl

/-- Full case analysis of one placement step: no rule fired, only the
capacity rule fired, only the event-switch rule fired, or both fired. -/
theorem placeEntry_cases (g : String → RundownConfig) (core : Core)
    (ev : String) :
    (¬ (core.lastEvent ≠ "" ∧ ev ≠ core.lastEvent ∧ 1 < core.station) ∧
      core.station ≤ (g ev).stationCount.getD 12 ∧
      (placeEntry g core ev).heat = core.heat ∧
      (placeEntry g core ev).station = core.station ∧
      (placeEntry g core ev).time = core.time) ∨
    (¬ (core.lastEvent ≠ "" ∧ ev ≠ core.lastEvent ∧ 1 < core.station) ∧
      (g ev).stationCount.getD 12 < core.station ∧
      (placeEntry g core ev).heat = core.heat + 1 ∧
      (placeEntry g core ev).station = 1 ∧
      (placeEntry g core ev).time =
        addMinutes core.time ((g ev).heatDuration.getD 2)) ∨
    ((core.lastEvent ≠ "" ∧ ev ≠ core.lastEvent ∧ 1 < core.station) ∧
      1 ≤ (g ev).stationCount.getD 12 ∧
      (placeEntry g core ev).heat = core.heat + 1 ∧
      (placeEntry g core ev).station = 1 ∧
      (placeEntry g core ev).time =
        addMinutes core.time ((g core.lastEvent).heatDuration.getD 2)) ∨
    ((core.lastEvent ≠ "" ∧ ev ≠ core.lastEvent ∧ 1 < core.station) ∧
      (g ev).stationCount.getD 12 = 0 ∧
      (placeEntry g core ev).heat = core.heat + 2 ∧
      (placeEntry g core ev).station = 1 ∧
      (placeEntry g core ev).time =
        addMinutes (addMinutes core.time ((g core.lastEvent).heatDuration.getD 2))
          ((g ev).heatDuration.getD 2)) := by
  by_cases hSW : core.lastEvent ≠ "" ∧ ev ≠ core.lastEvent ∧ 1 < core.station
  · by_cases hCap : (g ev).stationCount.getD 12 < 1
    · refine Or.inr (Or.inr (Or.inr ⟨hSW, by omega, ?_, ?_, ?_⟩)) <;>
        simp [placeEntry, hSW, hCap]
    · refine Or.inr (Or.inr (Or.inl ⟨hSW, by omega, ?_, ?_, ?_⟩)) <;>
        simp [placeEntry, hSW, hCap]
  · by_cases hCap : (g ev).stationCount.getD 12 < core.station
    · refine Or.inr (Or.inl ⟨hSW, hCap, ?_, ?_, ?_⟩) <;>
        simp [placeEntry, hSW, hCap]
    · refine Or.inl ⟨hSW, by omega, ?_, ?_, ?_⟩ <;>
        simp [placeEntry, hSW, hCap]

/-- The placement step never decreases the heat. -/
theorem placeEntry_heat_ge (g : String → RundownConfig) (core : Core)
    (ev : String) : core.heat ≤ (placeEntry g core ev).heat := by
  rcases placeEntry_cases g core ev with
    ⟨_, _, h, _, _⟩ | ⟨_, _, h, _, _⟩ | ⟨_, _, h, _, _⟩ | ⟨_, _, h, _, _⟩ <;> omega

/-- The placement step keeps the station positive. -/
theorem placeEntry_station_pos (g : String → RundownConfig) (core : Core)
    (ev : String) (h : 1 ≤ core.station) :
    1 ≤ (placeEntry g core ev).station := by
  rcases placeEntry_cases g core ev with
    ⟨_, _, _, h2, _⟩ | ⟨_, _, _, h2, _⟩ | ⟨_, _, _, h2, _⟩ | ⟨_, _, _, h2, _⟩ <;> omega

/-- A placement that stays in the current heat changed nothing except the
recorded last event; in particular no rule fired. -/
theorem placeEntry_heat_fix (g : String → RundownConfig) (core : Core)
    (ev : String) (h : (placeEntry g core ev).heat = core.heat) :
    ¬ (core.lastEvent ≠ "" ∧ ev ≠ core.lastEvent ∧ 1 < core.station) ∧
    core.station ≤ (g ev).stationCount.getD 12 ∧
    (placeEntry g core ev).station = core.station ∧
    (placeEntry g core ev).time = core.time := by
  rcases placeEntry_cases g core ev with
    ⟨h1, h2, h3, h4, h5⟩ | ⟨h1, h2, h3, h4, h5⟩ | ⟨h1, h2, h3, h4, h5⟩ |
    ⟨h1, h2, h3, h4, h5⟩
  · exact ⟨h1, h2, h4, h5⟩
  · omega
  · omega
  · omega

/-- The trimmed event code of a non-empty entry is that of its head. -/
theorem entryEV_eq {e : Entry} {p0 : Participant} {t : List Participant}
    (hp : e.participants = p0 :: t) : entryEV e = trimString p0.eventCode := by
  unfold entryEV
  rw [hp]

/-! ### Basic invariants of the slot list -/

/-- Every slot comes from a non-empty entry of the list. -/
theorem assignSlots_mem_entry (g : String → RundownConfig) :
    ∀ (es : List Entry) (core : Core), ∀ s ∈ assignSlots g core es,
      s.1 ∈ es ∧ s.1.participants ≠ [] := by
  intro es
  induction es with
  | nil => intro core s hs; cases hs
  | cons e rest ih =>
    intro core s hs
    cases hp0 : e.participants with
    | nil =>
      rw [assignSlots] at hs
      simp only [hp0] at hs
      obtain ⟨h1, h2⟩ := ih core s hs
      exact ⟨List.mem_cons_of_mem _ h1, h2⟩
    | cons p0 t =>
      rw [assignSlots] at hs
      simp only [hp0] at hs
      rcases List.mem_cons.mp hs with rfl | hs'
      · refine ⟨List.mem_cons_self _ _, ?_⟩
        rw [hp0]
        simp
      · obtain ⟨h1, h2⟩ := ih _ s hs'
        exact ⟨List.mem_cons_of_mem _ h1, h2⟩

/-- Heats of emitted slots never lie below the current heat. -/
theorem assignSlots_heat_ge (g : String → RundownConfig) :
    ∀ (es : List Entry) (core : Core), ∀ s ∈ assignSlots g core es,
      core.heat ≤ s.2.heat := by
  intro es
  induction es with
  | nil => intro core s hs; cases hs
  | cons e rest ih =>
    intro core s hs
    cases hp0 : e.participants with
    | nil =>
      rw [assignSlots] at hs
      simp only [hp0] at hs
      exact ih core s hs
    | cons p0 t =>
      rw [assignSlots] at hs
      simp only [hp0] at hs
      rcases List.mem_cons.mp hs with rfl | hs'
      · exact placeEntry_heat_ge g core (trimString p0.eventCode)
      · have h1 := ih _ s hs'
        have h2 := placeEntry_heat_ge g core (trimString p0.eventCode)
        simp only at h1
        omega

/-- All slots of the current heat carry the current heat start time. -/
theorem assignSlots_time_at_current (g : String → RundownConfig) :
    ∀ (es : List Entry) (core : Core), ∀ s ∈ assignSlots g core es,
      s.2.heat = core.heat → s.2.time = core.time := by
  intro es
  induction es with
  | nil => intro core s hs; cases hs
  | cons e rest ih =>
    intro core s hs hheat
    cases hp0 : e.participants with
    | nil =>
      rw [assignSlots] at hs
      simp only [hp0] at hs
      exact ih core s hs hheat
    | cons p0 t =>
      rw [assignSlots] at hs
      simp only [hp0] at hs
      rcases List.mem_cons.mp hs with rfl | hs'
      · exact (placeEntry_heat_fix g core (trimString p0.eventCode) hheat).2.2.2
      · have hub := assignSlots_heat_ge g rest
          { placeEntry g core (trimString p0.eventCode) with
            station := (placeEntry g core (trimString p0.eventCode)).station + 1 }
          s hs'
        have hge := placeEntry_heat_ge g core (trimString p0.eventCode)
        simp only at hub
        have hceq : (placeEntry g core (trimString p0.eventCode)).heat = core.heat := by
          omega
        obtain ⟨_, _, _, htime⟩ := placeEntry_heat_fix g core _ hceq
        have := ih
          { placeEntry g core (trimString p0.eventCode) with
            station := (placeEntry g core (trimString p0.eventCode)).station + 1 }
          s hs' (by simp only; omega)
        simp only at this
        rw [this, htime]

/-- The rows of the assignment loop are the rows of its slot list. -/
theorem assignEntries_eq_slotsRows (g : String → RundownConfig) :
    ∀ (es : List Entry) (core : Core),
      assignEntries g core es = slotsRows (assignSlots g core es) := by
  intro es
  induction es with
  | nil => intro core; rfl
  | cons e rest ih =>
    intro core
    cases hp0 : e.participants with
    | nil =>
      rw [assignEntries, assignSlots]
      simp only [hp0]
      exact ih core
    | cons p0 t =>
      rw [assignEntries, assignSlots]
      simp only [hp0]
      rw [slotsRows, ih]
      simp [slotRows, hp0]

/-- Membership in the rows of a slot list. -/
theorem slotsRows_mem {ss : List (Entry × Core)} {r : ScheduleResult} :
    r ∈ slotsRows ss ↔ ∃ s ∈ ss, r ∈ slotRows s := by
  induction ss with
  | nil => simp [slotsRows]
  | cons s0 ss' ih =>
    rw [slotsRows, List.mem_append, ih]
    constructor
    · rintro (h | ⟨s, hs, hr⟩)
      · exact ⟨s0, List.mem_cons_self _ _, h⟩
      · exact ⟨s, List.mem_cons_of_mem _ hs, hr⟩
    · rintro ⟨s, hs, hr⟩
      rcases List.mem_cons.mp hs with rfl | hs'
      · exact Or.inl hr
      · exact Or.inr ⟨s, hs', hr⟩

/-! ### One event per heat, at slot level -/

/-- Once at least one station of the current heat is filled, every later
slot of the same heat carries the current event. -/
theorem assignSlots_event_at_current (g : String → RundownConfig) :
    ∀ (es : List Entry) (core : Core), 2 ≤ core.station → core.lastEvent ≠ "" →
      ∀ s ∈ assignSlots g core es, s.2.heat = core.heat →
        entryEV s.1 = core.lastEvent := by
  intro es
  induction es with
  | nil => intro core _ _ s hs; cases hs
  | cons e rest ih =>
    intro core hst hle s hs hheat
    cases hp0 : e.participants with
    | nil =>
      rw [assignSlots] at hs
      simp only [hp0] at hs
      exact ih core hst hle s hs hheat
    | cons p0 t =>
      rw [assignSlots] at hs
      simp only [hp0] at hs
      rcases List.mem_cons.mp hs with rfl | hs'
      · obtain ⟨hnsw, _, _, _⟩ :=
          placeEntry_heat_fix g core (trimString p0.eventCode) hheat
        have hev : trimString p0.eventCode = core.lastEvent := by
          by_contra hne
          exact hnsw ⟨hle, hne, by omega⟩
        rw [entryEV_eq hp0, hev]
      · have hub := assignSlots_heat_ge g rest
          { placeEntry g core (trimString p0.eventCode) with
            station := (placeEntry g core (trimString p0.eventCode)).station + 1 }
          s hs'
        have hge := placeEntry_heat_ge g core (trimString p0.eventCode)
        simp only at hub
        have hceq : (placeEntry g core (trimString p0.eventCode)).heat = core.heat := by
          omega
        obtain ⟨hnsw, _, hstat, _⟩ :=
          placeEntry_heat_fix g core (trimString p0.eventCode) hceq
        have hev : trimString p0.eventCode = core.lastEvent := by
          by_contra hne
          exact hnsw ⟨hle, hne, by omega⟩
        have hst' : 2 ≤ (placeEntry g core (trimString p0.eventCode)).station + 1 := by
          omega
        have hle' : (placeEntry g core (trimString p0.eventCode)).lastEvent ≠ "" := by
          rw [placeEntry_lastEvent, hev]
          exact hle
        have hheat' : s.2.heat = (placeEntry g core (trimString p0.eventCode)).heat := by
          omega
        have hres := ih
          { placeEntry g core (trimString p0.eventCode) with
            station := (placeEntry g core (trimString p0.eventCode)).station + 1 }
          hst' hle' s hs' hheat'
        have hres' : entryEV s.1 =
            (placeEntry g core (trimString p0.eventCode)).lastEvent := hres
        rw [placeEntry_lastEvent] at hres'
        rw [hres', hev]

/-- Once at least one station of the current heat is filled and the
entries carry non-empty event codes, two slots of the same heat carry the
same event. -/
theorem assignSlots_pairwise_event (g : String → RundownConfig) :
    ∀ (es : List Entry) (core : Core), 2 ≤ core.station → core.lastEvent ≠ "" →
      (∀ e ∈ es, e.participants ≠ [] → entryEV e ≠ "") →
      ∀ s1 ∈ assignSlots g core es, ∀ s2 ∈ assignSlots g core es,
        s1.2.heat = s2.2.heat → entryEV s1.1 = entryEV s2.1 := by
  intro es
  induction es with
  | nil => intro core _ _ _ s1 hs1; cases hs1
  | cons e rest ih =>
    intro core hst hle hEV s1 hs1 s2 hs2 hheq
    cases hp0 : e.participants with
    | nil =>
      rw [assignSlots] at hs1 hs2
      simp only [hp0] at hs1 hs2
      exact ih core hst hle (fun e' he' => hEV e' (List.mem_cons_of_mem _ he'))
        s1 hs1 s2 hs2 hheq
    | cons p0 t =>
      have hevne : trimString p0.eventCode ≠ "" := by
        have := hEV e (List.mem_cons_self _ _) (by rw [hp0]; simp)
        rwa [entryEV_eq hp0] at this
      have hstpos : 1 ≤ core.station := by omega
      have hst' : 2 ≤ (placeEntry g core (trimString p0.eventCode)).station + 1 := by
        have := placeEntry_station_pos g core (trimString p0.eventCode) hstpos
        omega
      have hle' : (placeEntry g core (trimString p0.eventCode)).lastEvent ≠ "" := by
        rw [placeEntry_lastEvent]
        exact hevne
      rw [assignSlots] at hs1 hs2
      simp only [hp0] at hs1 hs2
      rcases List.mem_cons.mp hs1 with rfl | hs1' <;>
        rcases List.mem_cons.mp hs2 with h2 | hs2'
      · rw [h2]
      · have hres := assignSlots_event_at_current g rest
          { placeEntry g core (trimString p0.eventCode) with
            station := (placeEntry g core (trimString p0.eventCode)).station + 1 }
          hst' hle' s2 hs2' (by dsimp only at hheq ⊢; omega)
        have hres' : entryEV s2.1 =
            (placeEntry g core (trimString p0.eventCode)).lastEvent := hres
        rw [placeEntry_lastEvent] at hres'
        rw [hres', entryEV_eq hp0]
      · rw [h2] at hheq
        have hres := assignSlots_event_at_current g rest
          { placeEntry g core (trimString p0.eventCode) with
            station := (placeEntry g core (trimString p0.eventCode)).station + 1 }
          hst' hle' s1 hs1' (by dsimp only at hheq ⊢; omega)
        have hres' : entryEV s1.1 =
            (placeEntry g core (trimString p0.eventCode)).lastEvent := hres
        rw [placeEntry_lastEvent] at hres'
        rw [h2, hres', entryEV_eq hp0]
      · exact ih
          { placeEntry g core (trimString p0.eventCode) with
            station := (placeEntry g core (trimString p0.eventCode)).station + 1 }
          hst' hle' (fun e' he' => hEV e' (List.mem_cons_of_mem _ he'))
          s1 hs1' s2 hs2' hheq

/-- From the initial loop state (station 1, empty last event), two slots
of the same heat carry the same event, provided all entries carry
non-empty event codes. -/
theorem assignSlots_pairwise_event_init (g : String → RundownConfig) :
    ∀ (es : List Entry) (core : Core), core.station = 1 → core.lastEvent = "" →
      (∀ e ∈ es, e.participants ≠ [] → entryEV e ≠ "") →
      ∀ s1 ∈ assignSlots g core es, ∀ s2 ∈ assignSlots g core es,
        s1.2.heat = s2.2.heat → entryEV s1.1 = entryEV s2.1 := by
  intro es
  induction es with
  | nil => intro core _ _ _ s1 hs1; cases hs1
  | cons e rest ih =>
    intro core hst hle hEV s1 hs1 s2 hs2 hheq
    cases hp0 : e.participants with
    | nil =>
      rw [assignSlots] at hs1 hs2
      simp only [hp0] at hs1 hs2
      exact ih core hst hle (fun e' he' => hEV e' (List.mem_cons_of_mem _ he'))
        s1 hs1 s2 hs2 hheq
    | cons p0 t =>
      have hevne : trimString p0.eventCode ≠ "" := by
        have := hEV e (List.mem_cons_self _ _) (by rw [hp0]; simp)
        rwa [entryEV_eq hp0] at this
      have hst' : 2 ≤ (placeEntry g core (trimString p0.eventCode)).station + 1 := by
        have := placeEntry_station_pos g core (trimString p0.eventCode) (by omega)
        omega
      have hle' : (placeEntry g core (trimString p0.eventCode)).lastEvent ≠ "" := by
        rw [placeEntry_lastEvent]
        exact hevne
      rw [assignSlots] at hs1 hs2
      simp only [hp0] at hs1 hs2
      rcases List.mem_cons.mp hs1 with rfl | hs1' <;>
        rcases List.mem_cons.mp hs2 with h2 | hs2'
      · rw [h2]
      · have hres := assignSlots_event_at_current g rest
          { placeEntry g core (trimString p0.eventCode) with
            station := (placeEntry g core (trimString p0.eventCode)).station + 1 }
          hst' hle' s2 hs2' (by dsimp only at hheq ⊢; omega)
        have hres' : entryEV s2.1 =
            (placeEntry g core (trimString p0.eventCode)).lastEvent := hres
        rw [placeEntry_lastEvent] at hres'
        rw [hres', entryEV_eq hp0]
      · rw [h2] at hheq
        have hres := assignSlots_event_at_current g rest
          { placeEntry g core (trimString p0.eventCode) with
            station := (placeEntry g core (trimString p0.eventCode)).station + 1 }
          hst' hle' s1 hs1' (by dsimp only at hheq ⊢; omega)
        have hres' : entryEV s1.1 =
            (placeEntry g core (trimString p0.eventCode)).lastEvent := hres
        rw [placeEntry_lastEvent] at hres'
        rw [h2, hres', entryEV_eq hp0]
      · exact assignSlots_pairwise_event g rest
          { placeEntry g core (trimString p0.eventCode) with
            station := (placeEntry g core (trimString p0.eventCode)).station + 1 }
          hst' hle' (fun e' he' => hEV e' (List.mem_cons_of_mem _ he'))
          s1 hs1' s2 hs2' hheq

/-! ### Station bounds, at slot level -/

/-- With positive station counts, every slot station lies between 1 and
the station count of the slot entry event. -/
theorem assignSlots_station_bounds (g : String → RundownConfig)
    (hpos : ∀ c, 0 < (g c).stationCount.getD 12) :
    ∀ (es : List Entry) (core : Core), 1 ≤ core.station →
      ∀ s ∈ assignSlots g core es,
        1 ≤ s.2.station ∧
          s.2.station ≤ (g (entryEV s.1)).stationCount.getD 12 := by
  intro es
  induction es with
  | nil => intro core _ s hs; cases hs
  | cons e rest ih =>
    intro core hst s hs
    cases hp0 : e.participants with
    | nil =>
      rw [assignSlots] at hs
      simp only [hp0] at hs
      exact ih core hst s hs
    | cons p0 t =>
      rw [assignSlots] at hs
      simp only [hp0] at hs
      rcases List.mem_cons.mp hs with rfl | hs'
      · dsimp only
        rw [entryEV_eq hp0]
        rcases placeEntry_cases g core (trimString p0.eventCode) with
          ⟨_, h2, _, h4, _⟩ | ⟨_, _, _, h4, _⟩ | ⟨_, h2, _, h4, _⟩ | ⟨_, h2, _, _, _⟩
        · constructor <;> omega
        · have := hpos (trimString p0.eventCode)
          constructor <;> omega
        · constructor <;> omega
        · have := hpos (trimString p0.eventCode)
          omega
      · exact ih
          { placeEntry g core (trimString p0.eventCode) with
            station := (placeEntry g core (trimString p0.eventCode)).station + 1 }
          (by dsimp only; omega)
          s hs'

/-! ### Time progression, at slot level -/

/-- From a loop state owning heat h with event E, every slot landing in
heat h+1 starts at the state time plus the duration of E, provided all
slots of heats h and h+1 carry event E. -/
theorem assignSlots_time_step (g : String → RundownConfig) :
    ∀ (es : List Entry) (core : Core) (E : String) (h : Nat),
      core.lastEvent = E → core.heat = h →
      (∀ s ∈ assignSlots g core es, s.2.heat = h → entryEV s.1 = E) →
      (∀ s ∈ assignSlots g core es, s.2.heat = h + 1 → entryEV s.1 = E) →
      ∀ s ∈ assignSlots g core es, s.2.heat = h + 1 →
        s.2.time = addMinutes core.time ((g E).heatDuration.getD 2) := by
  intro es
  induction es with
  | nil => intro core E h _ _ _ _ s hs; cases hs
  | cons e rest ih =>
    intro core E h hlast hheat hyp1 hyp2 s hs hsh
    cases hp0 : e.participants with
    | nil =>
      rw [assignSlots] at hyp1 hyp2 hs
      simp only [hp0] at hyp1 hyp2 hs
      exact ih core E h hlast hheat hyp1 hyp2 s hs hsh
    | cons p0 t =>
      rw [assignSlots] at hyp1 hyp2 hs
      simp only [hp0] at hyp1 hyp2 hs
      rcases placeEntry_cases g core (trimString p0.eventCode) with
        ⟨hnsw, hbound, hh, hstat, htime⟩ | ⟨hnsw, hcap, hh, hstat, htime⟩ |
        ⟨hsw, hbound, hh, hstat, htime⟩ | ⟨hsw, hmax, hh, hstat, htime⟩
      · -- no rule fired: still in heat h
        have hevE : trimString p0.eventCode = E := by
          have := hyp1 (e, placeEntry g core (trimString p0.eventCode))
            (List.mem_cons_self _ _) (by dsimp only; omega)
          rwa [entryEV_eq hp0] at this
        rcases List.mem_cons.mp hs with rfl | hs'
        · exfalso
          dsimp only at hsh
          omega
        · have hres := ih
            { placeEntry g core (trimString p0.eventCode) with
              station := (placeEntry g core (trimString p0.eventCode)).station + 1 }
            E h (by rw [placeEntry_lastEvent]; exact hevE) (by simp only; omega)
            (fun s' hs' hh' => hyp1 s' (List.mem_cons_of_mem _ hs') hh')
            (fun s' hs' hh' => hyp2 s' (List.mem_cons_of_mem _ hs') hh')
            s hs' hsh
          have hres' : s.2.time = addMinutes
              (placeEntry g core (trimString p0.eventCode)).time
              ((g E).heatDuration.getD 2) := hres
          rw [hres', htime]
      · -- capacity rule fired: new heat h+1 owned by this event
        have hevE : trimString p0.eventCode = E := by
          have := hyp2 (e, placeEntry g core (trimString p0.eventCode))
            (List.mem_cons_self _ _) (by dsimp only; omega)
          rwa [entryEV_eq hp0] at this
        rcases List.mem_cons.mp hs with rfl | hs'
        · dsimp only
          rw [htime, hevE]
        · have hres := assignSlots_time_at_current g rest
            { placeEntry g core (trimString p0.eventCode) with
              station := (placeEntry g core (trimString p0.eventCode)).station + 1 }
            s hs' (by dsimp only; omega)
          have hres' : s.2.time =
              (placeEntry g core (trimString p0.eventCode)).time := hres
          rw [hres', htime, hevE]
      · -- switch rule fired alone: its entry would mix a new event into h+1
        exfalso
        have hevE : trimString p0.eventCode = E := by
          have := hyp2 (e, placeEntry g core (trimString p0.eventCode))
            (List.mem_cons_self _ _) (by dsimp only; omega)
          rwa [entryEV_eq hp0] at this
        exact hsw.2.1 (by rw [hevE, hlast])
      · -- both rules fired: heat jumps to h+2, no slot lands in h+1
        rcases List.mem_cons.mp hs with rfl | hs'
        · dsimp only at hsh
          omega
        · have hub := assignSlots_heat_ge g rest
            { placeEntry g core (trimString p0.eventCode) with
              station := (placeEntry g core (trimString p0.eventCode)).station + 1 }
            s hs'
          dsimp only at hub
          omega

/-- Two slots in consecutive heats that both belong to event E are one
heat duration of E apart. -/
theorem assignSlots_consecutive (g : String → RundownConfig) :
    ∀ (es : List Entry) (core : Core) (E : String) (h : Nat),
      (∀ s ∈ assignSlots g core es, s.2.heat = h → entryEV s.1 = E) →
      (∀ s ∈ assignSlots g core es, s.2.heat = h + 1 → entryEV s.1 = E) →
      ∀ s1 ∈ assignSlots g core es, ∀ s2 ∈ assignSlots g core es,
        s1.2.heat = h → s2.2.heat = h + 1 →
        s2.2.time = addMinutes s1.2.time ((g E).heatDuration.getD 2) := by
  intro es
  induction es with
  | nil => intro core E h _ _ s1 hs1; cases hs1
  | cons e rest ih =>
    intro core E h hyp1 hyp2 s1 hs1 s2 hs2 hh1 hh2
    cases hp0 : e.participants with
    | nil =>
      rw [assignSlots] at hyp1 hyp2 hs1 hs2
      simp only [hp0] at hyp1 hyp2 hs1 hs2
      exact ih core E h hyp1 hyp2 s1 hs1 s2 hs2 hh1 hh2
    | cons p0 t =>
      rw [assignSlots] at hyp1 hyp2 hs1 hs2
      simp only [hp0] at hyp1 hyp2 hs1 hs2
      rcases List.mem_cons.mp hs1 with rfl | hs1'
      · rcases List.mem_cons.mp hs2 with h2 | hs2'
        · exfalso
          rw [h2] at hh2
          dsimp only at hh1 hh2
          omega
        · have hevE : trimString p0.eventCode = E := by
            have := hyp1 (e, placeEntry g core (trimString p0.eventCode))
              (List.mem_cons_self _ _) hh1
            rwa [entryEV_eq hp0] at this
          have hres := assignSlots_time_step g rest
            { placeEntry g core (trimString p0.eventCode) with
              station := (placeEntry g core (trimString p0.eventCode)).station + 1 }
            E h (by rw [placeEntry_lastEvent]; exact hevE)
            (by dsimp only at hh1 ⊢; omega)
            (fun s' hs' hh' => hyp1 s' (List.mem_cons_of_mem _ hs') hh')
            (fun s' hs' hh' => hyp2 s' (List.mem_cons_of_mem _ hs') hh')
            s2 hs2' hh2
          have hres' : s2.2.time = addMinutes
              (placeEntry g core (trimString p0.eventCode)).time
              ((g E).heatDuration.getD 2) := hres
          exact hres'
      · rcases List.mem_cons.mp hs2 with h2 | hs2'
        · exfalso
          have hub := assignSlots_heat_ge g rest
            { placeEntry g core (trimString p0.eventCode) with
              station := (placeEntry g core (trimString p0.eventCode)).station + 1 }
            s1 hs1'
          rw [h2] at hh2
          dsimp only at hub hh2
          omega
        · exact ih
            { placeEntry g core (trimString p0.eventCode) with
              station := (placeEntry g core (trimString p0.eventCode)).station + 1 }
            E h
            (fun s' hs' hh' => hyp1 s' (List.mem_cons_of_mem _ hs') hh')
            (fun s' hs' hh' => hyp2 s' (List.mem_cons_of_mem _ hs') hh')
            s1 hs1' s2 hs2' hh1 hh2

/-! ### Bridging rows, slots and the roster -/

/-- When participants sharing a group id share a trimmed event code, all
members of an entry carry the trimmed event code of the entry. -/
theorem buildEntries_homog (l : List Participant)
    (hHG : ∀ p ∈ l, ∀ q ∈ l, p.groupId = q.groupId → p.groupId ≠ "" →
      trimString p.eventCode = trimString q.eventCode) :
    ∀ e ∈ buildEntries l, ∀ p ∈ e.participants,
      trimString p.eventCode = entryEV e := by
  intro e he p hp
  rcases buildEntriesGo_shape l l [] e he with ⟨y, _, _, rfl⟩ | ⟨y, _, hyg, rfl⟩
  · have hpy : p = y := List.mem_singleton.mp hp
    rw [hpy, entryEV_eq (show (⟨y.id, false, [y]⟩ : Entry).participants = y :: [] from rfl)]
  · cases hfil : l.filter (fun gp => gp.groupId = y.groupId) with
    | nil =>
      exfalso
      have hp' : p ∈ l.filter (fun gp => gp.groupId = y.groupId) := hp
      rw [hfil] at hp'
      cases hp'
    | cons x0 t =>
      have hx0 : x0 ∈ l.filter (fun gp => gp.groupId = y.groupId) := by
        rw [hfil]
        exact List.mem_cons_self _ _
      have hp' : p ∈ l.filter (fun gp => gp.groupId = y.groupId) := hp
      obtain ⟨hx0l, hx0g⟩ := List.mem_filter.mp hx0
      obtain ⟨hpl, hpg⟩ := List.mem_filter.mp hp'
      simp only [decide_eq_true_eq] at hx0g hpg
      have hEV2 : entryEV ⟨y.groupId, true, x0 :: t⟩ = trimString x0.eventCode :=
        entryEV_eq rfl
      rw [hEV2]
      exact hHG p hpl x0 hx0l (by rw [hpg, hx0g]) (by rw [hpg]; exact hyg)

/-- When all participants carry non-empty trimmed event codes, so do all
entries. -/
theorem buildEntries_EV_ne (l : List Participant)
    (hne : ∀ p ∈ l, trimString p.eventCode ≠ "") :
    ∀ e ∈ buildEntries l, e.participants ≠ [] → entryEV e ≠ "" := by
  intro e he hnonempty
  cases hp0 : e.participants with
  | nil => exact absurd hp0 hnonempty
  | cons p0 t =>
    rw [entryEV_eq hp0]
    exact hne p0 (buildEntries_parts_mem l e he p0 (by rw [hp0]; exact List.mem_cons_self _ _))

/-- Members of schedule entries come from the roster. -/
theorem scheduleEntries_parts_roster (participants : List Participant)
    (events : List EventConfig) (pfx : String → Option String)
    (options : ScheduleOptions) {e : Entry}
    (he : e ∈ scheduleEntries participants events pfx options)
    {x : Participant} (hx : x ∈ e.participants) : x ∈ participants := by
  have h1 : x ∈ sortedSelection participants events pfx options :=
    buildEntries_parts_mem _ e he x hx
  have h2 : x ∈ selectParts participants options :=
    (sortByCmp_perm _ _).mem_iff.mp h1
  exact (selectParts_sublist _ _).subset h2

/-- Every result row of the scheduler comes from a slot and one of its
members. -/
theorem scheduleParticipants_rows (participants : List Participant)
    (events : List EventConfig) (pfx : String → Option String)
    (getCfg : String → RundownConfig) (options : ScheduleOptions)
    {r : ScheduleResult}
    (hr : r ∈ scheduleParticipants participants events pfx getCfg options) :
    ∃ s ∈ assignSlots getCfg
        (initialCore participants events pfx getCfg options)
        (scheduleEntries participants events pfx options),
      ∃ x ∈ s.1.participants,
        r.participantId = x.id ∧ r.heat = s.2.heat ∧ r.station = s.2.station ∧
          r.scheduleTime = s.2.time := by
  cases hemp : (selectParts participants options).isEmpty with
  | true =>
    exfalso
    unfold scheduleParticipants at hr
    rw [hemp] at hr
    simp at hr
  | false =>
    rw [scheduleParticipants_eq participants events pfx getCfg options hemp,
      assignEntries_eq_slotsRows] at hr
    obtain ⟨s, hs, hrs⟩ := slotsRows_mem.mp hr
    unfold slotRows at hrs
    obtain ⟨x, hx, hxe⟩ := List.mem_map.mp hrs
    exact ⟨s, hs, x, hx, by rw [← hxe], by rw [← hxe], by rw [← hxe], by rw [← hxe]⟩

/-- Conversely, the head member of every slot yields a result row. -/
theorem slot_head_row_mem (participants : List Participant)
    (events : List EventConfig) (pfx : String → Option String)
    (getCfg : String → RundownConfig) (options : ScheduleOptions)
    (hemp : (selectParts participants options).isEmpty = false)
    {s : Entry × Core}
    (hs : s ∈ assignSlots getCfg
      (initialCore participants events pfx getCfg options)
      (scheduleEntries participants events pfx options))
    {p0 : Participant} {t : List Participant} (hp0 : s.1.participants = p0 :: t) :
    ({ participantId := p0.id, heat := s.2.heat, station := s.2.station,
       scheduleTime := s.2.time } : ScheduleResult) ∈
      scheduleParticipants participants events pfx getCfg options := by
  rw [scheduleParticipants_eq participants events pfx getCfg options hemp,
    assignEntries_eq_slotsRows]
  refine slotsRows_mem.mpr ⟨s, hs, ?_⟩
  unfold slotRows
  rw [hp0]
  exact List.mem_map_of_mem _ (List.mem_cons_self _ _)

/-! ### C6, C7, C8 -/

/-- C6 counterexample: with a participant whose trimmed event code is
empty, the falsy last-event check skips the event switch and one heat
mixes two trimmed event codes. -/
theorem thm_C6_counterexample :
    ¬ (∀ r1 ∈ scheduleParticipants cexC6Roster [] (fun _ => none) cexC6Cfg {},
        ∀ r2 ∈ scheduleParticipants cexC6Roster [] (fun _ => none) cexC6Cfg {},
        r1.heat = r2.heat →
        ∀ p ∈ cexC6Roster, ∀ q ∈ cexC6Roster,
          p.id = r1.participantId → q.id = r2.participantId →
          trimString p.eventCode = trimString q.eventCode) := by decide

/-- C6 amended: with unique participant ids, non-empty trimmed event
codes, and group members sharing a trimmed event code (all construction
invariants of the surrounding system), any two result rows of the same
heat belong to participants with the same trimmed event code. -/
theorem thm_C6_amended (participants : List Participant)
    (events : List EventConfig) (pfx : String → Option String)
    (getCfg : String → RundownConfig) (options : ScheduleOptions)
    (hnd : (participants.map (fun x => x.id)).Nodup)
    (hne : ∀ p ∈ participants, trimString p.eventCode ≠ "")
    (hHG : ∀ p ∈ participants, ∀ q ∈ participants, p.groupId = q.groupId →
      p.groupId ≠ "" → trimString p.eventCode = trimString q.eventCode) :
    ∀ r1 ∈ scheduleParticipants participants events pfx getCfg options,
      ∀ r2 ∈ scheduleParticipants participants events pfx getCfg options,
        r1.heat = r2.heat →
        ∀ p ∈ participants, ∀ q ∈ participants,
          p.id = r1.participantId → q.id = r2.participantId →
          trimString p.eventCode = trimString q.eventCode := by
  intro r1 hr1 r2 hr2 hheat p hp q hq hid1 hid2
  obtain ⟨s1, hs1, x1, hx1, hxid1, hxh1, _, _⟩ :=
    scheduleParticipants_rows participants events pfx getCfg options hr1
  obtain ⟨s2, hs2, x2, hx2, hxid2, hxh2, _, _⟩ :=
    scheduleParticipants_rows participants events pfx getCfg options hr2
  have hEVne : ∀ e ∈ scheduleEntries participants events pfx options,
      e.participants ≠ [] → entryEV e ≠ "" := by
    refine buildEntries_EV_ne _ ?_
    intro x hxm
    exact hne x ((selectParts_sublist _ _).subset ((sortByCmp_perm _ _).mem_iff.mp hxm))
  have hpair := assignSlots_pairwise_event_init getCfg
    (scheduleEntries participants events pfx options)
    (initialCore participants events pfx getCfg options) rfl rfl hEVne
    s1 hs1 s2 hs2 (by omega)
  have hHGs : ∀ a ∈ sortedSelection participants events pfx options,
      ∀ b ∈ sortedSelection participants events pfx options,
      a.groupId = b.groupId → a.groupId ≠ "" →
      trimString a.eventCode = trimString b.eventCode := by
    intro a ha b hb
    exact hHG a ((selectParts_sublist _ _).subset ((sortByCmp_perm _ _).mem_iff.mp ha))
      b ((selectParts_sublist _ _).subset ((sortByCmp_perm _ _).mem_iff.mp hb))
  have hx1EV : trimString x1.eventCode = entryEV s1.1 :=
    buildEntries_homog _ hHGs s1.1
      (assignSlots_mem_entry getCfg _ _ s1 hs1).1 x1 hx1
  have hx2EV : trimString x2.eventCode = entryEV s2.1 :=
    buildEntries_homog _ hHGs s2.1
      (assignSlots_mem_entry getCfg _ _ s2 hs2).1 x2 hx2
  have hx1r : x1 ∈ participants :=
    scheduleEntries_parts_roster participants events pfx options
      (assignSlots_mem_entry getCfg _ _ s1 hs1).1 hx1
  have hx2r : x2 ∈ participants :=
    scheduleEntries_parts_roster participants events pfx options
      (assignSlots_mem_entry getCfg _ _ s2 hs2).1 hx2
  have hpx1 : p = x1 :=
    List.inj_on_of_nodup_map hnd hp hx1r (by rw [hid1, hxid1])
  have hqx2 : q = x2 :=
    List.inj_on_of_nodup_map hnd hq hx2r (by rw [hid2, hxid2])
  rw [hpx1, hqx2, hx1EV, hx2EV, hpair]

/-- C6 witness: the amended statement evaluated on the Scenario A
roster. -/
theorem thm_C6_witness :
    ((rosterA.map (fun x => x.id)).Nodup ∧
      (∀ p ∈ rosterA, trimString p.eventCode ≠ "") ∧
      (∀ p ∈ rosterA, ∀ q ∈ rosterA, p.groupId = q.groupId →
        p.groupId ≠ "" → trimString p.eventCode = trimString q.eventCode)) ∧
    ∀ r1 ∈ scheduleParticipants rosterA eventsA pfxA cfgA {},
      ∀ r2 ∈ scheduleParticipants rosterA eventsA pfxA cfgA {},
        r1.heat = r2.heat →
        ∀ p ∈ rosterA, ∀ q ∈ rosterA,
          p.id = r1.participantId → q.id = r2.participantId →
          trimString p.eventCode = trimString q.eventCode :=
  ⟨⟨by decide, by decide, by decide⟩,
    thm_C6_amended rosterA eventsA pfxA cfgA {} (by decide) (by decide) (by decide)⟩

/-- C7 counterexample: with positive station counts everywhere but a
group mixing two events, one member is emitted on a station above the
station count of its own event (the group occupies station 2 while event
B allows only 1). -/
theorem thm_C7_counterexample :
    (∀ c, 0 < (cexC7Cfg c).stationCount.getD 12) ∧
    ¬ (∀ r ∈ scheduleParticipants cexC7Roster cexC7Events (fun _ => none) cexC7Cfg {},
        ∀ p ∈ cexC7Roster, p.id = r.participantId →
          1 ≤ r.station ∧
            r.station ≤ (cexC7Cfg (trimString p.eventCode)).stationCount.getD 12) := by
  constructor
  · intro c
    unfold cexC7Cfg
    by_cases h1 : c = "A"
    · simp [h1]
    · by_cases h2 : c = "B"
      · simp [h1, h2]
      · simp [h1, h2]
  · decide

/-- C7 amended: with positive station counts from the resolver, unique
participant ids and group members sharing a trimmed event code (a
construction invariant of the surrounding system), every result row has
1 ≤ station ≤ stationCount of its participant trimmed event. -/
theorem thm_C7_amended (participants : List Participant)
    (events : List EventConfig) (pfx : String → Option String)
    (getCfg : String → RundownConfig) (options : ScheduleOptions)
    (hpos : ∀ c, 0 < (getCfg c).stationCount.getD 12)
    (hnd : (participants.map (fun x => x.id)).Nodup)
    (hHG : ∀ p ∈ participants, ∀ q ∈ participants, p.groupId = q.groupId →
      p.groupId ≠ "" → trimString p.eventCode = trimString q.eventCode) :
    ∀ r ∈ scheduleParticipants participants events pfx getCfg options,
      1 ≤ r.station ∧
      ∀ p ∈ participants, p.id = r.participantId →
        r.station ≤ (getCfg (trimString p.eventCode)).stationCount.getD 12 := by
  intro r hr
  obtain ⟨s, hs, x, hx, hxid, _, hxst, _⟩ :=
    scheduleParticipants_rows participants events pfx getCfg options hr
  have hbounds := assignSlots_station_bounds getCfg hpos
    (scheduleEntries participants events pfx options)
    (initialCore participants events pfx getCfg options) (Nat.le_refl 1) s hs
  refine ⟨by omega, ?_⟩
  intro p hp hid
  have hHGs : ∀ a ∈ sortedSelection participants events pfx options,
      ∀ b ∈ sortedSelection participants events pfx options,
      a.groupId = b.groupId → a.groupId ≠ "" →
      trimString a.eventCode = trimString b.eventCode := by
    intro a ha b hb
    exact hHG a ((selectParts_sublist _ _).subset ((sortByCmp_perm _ _).mem_iff.mp ha))
      b ((selectParts_sublist _ _).subset ((sortByCmp_perm _ _).mem_iff.mp hb))
  have hxEV : trimString x.eventCode = entryEV s.1 :=
    buildEntries_homog _ hHGs s.1 (assignSlots_mem_entry getCfg _ _ s hs).1 x hx
  have hxr : x ∈ participants :=
    scheduleEntries_parts_roster participants events pfx options
      (assignSlots_mem_entry getCfg _ _ s hs).1 hx
  have hpx : p = x := List.inj_on_of_nodup_map hnd hp hxr (by rw [hid, hxid])
  rw [hpx, hxEV, hxst]
  exact hbounds.2

/-- C7 witness: the amended statement evaluated on the Scenario B
roster. -/
theorem thm_C7_witness :
    ((∀ c, 0 < (cfgA c).stationCount.getD 12) ∧
      (rosterB.map (fun x => x.id)).Nodup ∧
      (∀ p ∈ rosterB, ∀ q ∈ rosterB, p.groupId = q.groupId →
        p.groupId ≠ "" → trimString p.eventCode = trimString q.eventCode)) ∧
    ∀ r ∈ scheduleParticipants rosterB eventsA pfxA cfgA {},
      1 ≤ r.station ∧
      ∀ p ∈ rosterB, p.id = r.participantId →
        r.station ≤ (cfgA (trimString p.eventCode)).stationCount.getD 12 :=
  ⟨⟨by intro c; show (0 : Nat) < 2; decide, by decide, by decide⟩,
    thm_C7_amended rosterB eventsA pfxA cfgA {}
      (by intro c; show (0 : Nat) < 2; decide) (by decide) (by decide)⟩

/-- C8: with positive station counts and heat durations from the
resolver, if every row of heat h and every row of heat h+1 belongs to
trimmed event E, then the schedule time of heat h+1 is addMinutes of the
schedule time of heat h and the heat duration of E. -/
theorem thm_C8_time_progression (participants : List Participant)
    (events : List EventConfig) (pfx : String → Option String)
    (getCfg : String → RundownConfig) (options : ScheduleOptions)
    (hposS : ∀ c, 0 < (getCfg c).stationCount.getD 12)
    (hposD : ∀ c, 0 < (getCfg c).heatDuration.getD 2)
    (h : Nat) (E : String)
    (hE1 : ∀ r ∈ scheduleParticipants participants events pfx getCfg options,
      r.heat = h → ∀ p ∈ participants, p.id = r.participantId →
        trimString p.eventCode = E)
    (hE2 : ∀ r ∈ scheduleParticipants participants events pfx getCfg options,
      r.heat = h + 1 → ∀ p ∈ participants, p.id = r.participantId →
        trimString p.eventCode = E) :
    ∀ r1 ∈ scheduleParticipants participants events pfx getCfg options,
      ∀ r2 ∈ scheduleParticipants participants events pfx getCfg options,
        r1.heat = h → r2.heat = h + 1 →
        r2.scheduleTime = addMinutes r1.scheduleTime
          ((getCfg E).heatDuration.getD 2) := by
  intro r1 hr1 r2 hr2 hh1 hh2
  cases hemp : (selectParts participants options).isEmpty with
  | true =>
    exfalso
    unfold scheduleParticipants at hr1
    rw [hemp] at hr1
    simp at hr1
  | false =>
    obtain ⟨s1, hs1, x1, hx1, hxid1, hxh1, _, hxt1⟩ :=
      scheduleParticipants_rows participants events pfx getCfg options hr1
    obtain ⟨s2, hs2, x2, hx2, hxid2, hxh2, _, hxt2⟩ :=
      scheduleParticipants_rows participants events pfx getCfg options hr2
    have hyp1 : ∀ s ∈ assignSlots getCfg
        (initialCore participants events pfx getCfg options)
        (scheduleEntries participants events pfx options),
        s.2.heat = h → entryEV s.1 = E := by
      intro s hs hsh
      obtain ⟨hse, hsne⟩ := assignSlots_mem_entry getCfg _ _ s hs
      cases hp0 : s.1.participants with
      | nil => exact absurd hp0 hsne
      | cons p0 t =>
        have hrow := slot_head_row_mem participants events pfx getCfg options
          hemp hs hp0
        have hp0r : p0 ∈ participants :=
          scheduleEntries_parts_roster participants events pfx options hse
            (by rw [hp0]; exact List.mem_cons_self _ _)
        have hthis := hE1 _ hrow hsh p0 hp0r rfl
        rw [entryEV_eq hp0]
        exact hthis
    have hyp2 : ∀ s ∈ assignSlots getCfg
        (initialCore participants events pfx getCfg options)
        (scheduleEntries participants events pfx options),
        s.2.heat = h + 1 → entryEV s.1 = E := by
      intro s hs hsh
      obtain ⟨hse, hsne⟩ := assignSlots_mem_entry getCfg _ _ s hs
      cases hp0 : s.1.participants with
      | nil => exact absurd hp0 hsne
      | cons p0 t =>
        have hrow := slot_head_row_mem participants events pfx getCfg options
          hemp hs hp0
        have hp0r : p0 ∈ participants :=
          scheduleEntries_parts_roster participants events pfx options hse
            (by rw [hp0]; exact List.mem_cons_self _ _)
        have hthis := hE2 _ hrow hsh p0 hp0r rfl
        rw [entryEV_eq hp0]
        exact hthis
    have hW := assignSlots_consecutive getCfg
      (scheduleEntries participants events pfx options)
      (initialCore participants events pfx getCfg options) E h hyp1 hyp2
      s1 hs1 s2 hs2 (by omega) (by omega)
    rw [hxt2, hW, hxt1]

/-- C8 witness: the statement evaluated on Scenario A, whose heats 1 and
2 both belong to event SRSS and lie one heat duration apart. -/
theorem thm_C8_witness :
    ((∀ c, 0 < (cfgA c).stationCount.getD 12) ∧
      (∀ c, 0 < (cfgA c).heatDuration.getD 2) ∧
      (∀ r ∈ scheduleParticipants rosterA eventsA pfxA cfgA {},
        r.heat = 1 → ∀ p ∈ rosterA, p.id = r.participantId →
          trimString p.eventCode = "SRSS") ∧
      (∀ r ∈ scheduleParticipants rosterA eventsA pfxA cfgA {},
        r.heat = 2 → ∀ p ∈ rosterA, p.id = r.participantId →
          trimString p.eventCode = "SRSS")) ∧
    ∀ r1 ∈ scheduleParticipants rosterA eventsA pfxA cfgA {},
      ∀ r2 ∈ scheduleParticipants rosterA eventsA pfxA cfgA {},
        r1.heat = 1 → r2.heat = 1 + 1 →
        r2.scheduleTime = addMinutes r1.scheduleTime
          ((cfgA "SRSS").heatDuration.getD 2) :=
  ⟨⟨by intro c; show (0 : Nat) < 2; decide, by intro c; show (0 : Int) < 2; decide,
      by decide, by decide⟩,
    thm_C8_time_progression rosterA eventsA pfxA cfgA {}
      (by intro c; show (0 : Nat) < 2; decide)
      (by intro c; show (0 : Int) < 2; decide) 1 "SRSS" (by decide) (by decide)⟩

end Rundown
